import Mathlib

/-!
Verification of the chunked tensor storage engine (`hub/core/chunk.py`,
`hub/core/meta/encode/chunk_id.py`) against its natural-language
specification.

Conventions of the shallow embedding:
* numpy `uint32` cells (the `ENCODING_DTYPE` of the encoder tables) are
  modelled as `Nat` with an explicit `% U32` wherever the Python code casts
  into or mutates the dtype, so wrap-around is visible;
* Python `int` values stay plain `Nat` / `Int` (they are arbitrary precision);
* in-place mutation with exceptions is modelled by returning the state the
  object holds when the exception propagates, paired with an `Option` error;
* byte buffers are `List Nat` (each entry a byte value).
-/

namespace Hub

/-- `2 ^ 32`, the modulus of the unsigned 32-bit `ENCODING_DTYPE`.
Modelled from the spec: §6 "`ENCODING_DTYPE` (u32 for row tables)",
§4.A "a 2D table of unsigned 32-bit rows" (`hub/constants.py` is not in
the sources). -/
def U32 : Nat := 4294967296

/-- Errors surfaced by the encoders and chunks (spec §6 "Error kinds"). -/
inductive CidErr where
  | valueErr
  | chunkIdEncoderErr
  | notImplementedErr
deriving DecidableEq, Repr

/-- A chunk-id encoder table: rows `(chunk id, last-seen sample index)`,
both held in the unsigned 32-bit encoding dtype (`self._encoded`,
`CHUNK_ID_COLUMN = 0`, trailing column `LAST_SEEN_INDEX_COLUMN`). -/
abbrev CidTable := List (Nat × Nat)

/-- `Encoder.num_samples`: `table[-1, last-column] + 1`, or `0` for an empty
table. Modelled from the spec §4.A (the base `Encoder` is not in the
sources); the `+ 1` is Python `int` arithmetic, so the `[id, -1]` sentinel
row yields `2^32`, not `0`. -/
def numSamplesCid (t : CidTable) : Nat :=
  match t.getLast? with
  | none => 0
  | some r => r.2 + 1

/-- `ChunkIdEncoder.num_chunks` (source): `0` if `num_samples == 0`, else the
row count. -/
def numChunks (t : CidTable) : Nat :=
  if numSamplesCid t = 0 then 0 else t.length

/-- The id value built in `generate_chunk_id` (source line 63):
`ENCODING_DTYPE(uuid4().int >> UUID_SHIFT_AMOUNT)`.  `r` is the 128-bit
`uuid4().int`; the cast into the 32-bit encoding dtype truncates mod `2^32`. -/
def chunkIdValue (shift r : Nat) : Nat :=
  (r >>> shift) % U32

/-- `ChunkIdEncoder.generate_chunk_id` (source): on an empty encoder writes
the sentinel row `[id, -1]` cast into uint32 (`-1 ↦ 2^32 - 1`); otherwise
appends a row `[id, num_samples - 1]`.  Returns the id and the new table. -/
def generateChunkId (shift r : Nat) (t : CidTable) : Nat × CidTable :=
  let id := chunkIdValue shift r
  if numSamplesCid t = 0 then
    (id, [(id, U32 - 1)])
  else
    (id, t ++ [(id, (numSamplesCid t - 1) % U32)])

/-- `ChunkIdEncoder.register_samples` (source), composed with the base
`Encoder.register_samples` (modelled from the spec §4.A: validate, then —
since `_combine_condition` always holds for this encoder — extend the last
row's last-seen).  The extension is `_derive_next_last_index` (source):
uint32 wrap-around addition, with the overflow warning suppressed.
Mutation happens only after validation, so an error leaves the table as it
was. -/
def registerSamples (t : CidTable) (n : Int) : CidTable × Option CidErr :=
  if n < 0 then (t, some .valueErr)
  else if numSamplesCid t = 0 then (t, some .chunkIdEncoderErr)
  else if n = 0 ∧ numChunks t < 2 then (t, some .chunkIdEncoderErr)
  else
    match t.getLast? with
    | none => (t, some .chunkIdEncoderErr)
    | some r => (t.dropLast ++ [(r.1, (r.2 + n.toNat) % U32)], none)

/-- `Encoder.translate_index`.  Modelled from the spec §4.A (the base
`Encoder` is not in the sources): Python negative indices are normalized by
adding `num_samples`, then `np.searchsorted(last-seen column, i)` returns
the first row whose last-seen is `≥ i` (`t.length` when there is none). -/
def cidTranslate (t : CidTable) (i : Int) : Nat :=
  let j : Int := if i < 0 then i + numSamplesCid t else i
  t.findIdx (fun r => j ≤ (r.2 : Int))

/-- The `while` loop of `ChunkIdEncoder.__getitem__` (source lines 199-210):
starting at row `m` over the remaining rows, it collects rows whose
last-seen equals the *unnormalized* argument `i`, recording the row index
*after* its increment.  The comparison `uint32 == i` is value-exact, so a
negative `i` never matches. -/
def cidTiledScan (i : Int) (m : Nat) : CidTable → List (Nat × Nat)
  | [] => []
  | r :: rest =>
      if (r.2 : Int) = i then (r.1, m + 1) :: cidTiledScan i (m + 1) rest
      else []

/-- `ChunkIdEncoder.__getitem__(i, return_row_index=True)` (source): the
match row's `(id, row index)` followed by the tiled-continuation scan.
`none` models the `IndexError` when the search lands past the table. -/
def cidGetWithRows (t : CidTable) (i : Int) : Option (List (Nat × Nat)) :=
  let k := cidTranslate t i
  if h : k < t.length then
    some (((t.get ⟨k, h⟩).1, k) :: cidTiledScan i (k + 1) (t.drop (k + 1)))
  else none

/-- `ChunkIdEncoder.__getitem__(i)` (source): just the chunk ids. -/
def cidGetIds (t : CidTable) (i : Int) : Option (List Nat) :=
  (cidGetWithRows t i).map (List.map Prod.fst)

/-- `ChunkIdEncoder.translate_index_relative_to_chunks` (source lines
94-132).  `none` models the `IndexError` / failed `assert len(ls) == 1`.
The `+ 1` on the previous row's last-seen is uint32 arithmetic. -/
def translateIndexRelativeToChunks (t : CidTable) (i : Nat) : Option Int :=
  match cidGetWithRows t (i : Int) with
  | none => none
  | some ls =>
      if ls.length = 1 then
        let k := (ls.headD (0, 0)).2
        if k = 0 then some (i : Int)
        else some ((i : Int) - ((((t.getD (k - 1) (0, 0)).2 + 1) % U32 : Nat) : Int))
      else none

/-- `ChunkIdEncoder._num_samples_in_last_chunk` (source lines 213-222); the
`+ 1` and the row difference are uint32 arithmetic (wrap-around). -/
def numSamplesInLastChunk (t : CidTable) : Nat :=
  if t.length = 0 then 0
  else if t.length = 1 then ((t.getD 0 (0, 0)).2 + 1) % U32
  else
    let a := (t.getD (t.length - 1) (0, 0)).2
    let b := (t.getD (t.length - 2) (0, 0)).2
    (a % U32 + (U32 - b % U32)) % U32

/-- `ChunkIdEncoder._pop` (source lines 224-235).  `self[-1]` resolves the
last sample; `self._encoded[:-k]` drops the trailing `k` rows; the in-place
`-= 1` on the last row's last-seen is uint32 wrap-around.  `none` models the
`IndexError` on an empty encoder. -/
def cidPop (t : CidTable) : Option (List Nat × CidTable) :=
  match cidGetIds t (-1) with
  | none => none
  | some ids =>
      if ids.length > 1 then some (ids, t.take (t.length - ids.length))
      else if numSamplesInLastChunk t = 1 then some (ids, t.dropLast)
      else
        match t.getLast? with
        | none => none
        | some r => some ([], t.dropLast ++ [(r.1, (r.2 % U32 + (U32 - 1)) % U32)])

/-- `ChunkIdEncoder.__setitem__` (source lines 168-171): unconditionally
raises `NotImplementedError`, leaving the table untouched. -/
def cidSetItem (t : CidTable) (_args : List Int) : CidTable × Option CidErr :=
  (t, some .notImplementedErr)

/-! ## Serializer

Modelled from the spec §4.G (`hub/core/serialize.py` is not in the sources):
framing integers are big-endian u4; table rows are uint32 little-endian for
chunk tables and uint64 little-endian for the chunk-id table. -/

/-- Big-endian 4-byte encoding of `n` (value taken mod `2^32`). -/
def u32be (n : Nat) : List Nat :=
  [n / 16777216 % 256, n / 65536 % 256, n / 256 % 256, n % 256]

/-- Little-endian 4-byte encoding of `n` (value taken mod `2^32`). -/
def u32le (n : Nat) : List Nat :=
  [n % 256, n / 256 % 256, n / 65536 % 256, n / 16777216 % 256]

/-- Little-endian 8-byte encoding of `n` (value taken mod `2^64`). -/
def u64le (n : Nat) : List Nat :=
  [n % 256, n / 256 % 256, n / 65536 % 256, n / 16777216 % 256,
   n / 4294967296 % 256, n / 1099511627776 % 256,
   n / 281474976710656 % 256, n / 72057594037927936 % 256]

/-- Reads a big-endian u32 off the front of a buffer. -/
def readU32be : List Nat → Option (Nat × List Nat)
  | b0 :: b1 :: b2 :: b3 :: rest =>
      some (b0 * 16777216 + b1 * 65536 + b2 * 256 + b3, rest)
  | _ => none

/-- Reads a little-endian u32 off the front of a buffer. -/
def readU32le : List Nat → Option (Nat × List Nat)
  | b0 :: b1 :: b2 :: b3 :: rest =>
      some (b0 + b1 * 256 + b2 * 65536 + b3 * 16777216, rest)
  | _ => none

/-- Reads a little-endian u64 off the front of a buffer. -/
def readU64le : List Nat → Option (Nat × List Nat)
  | b0 :: b1 :: b2 :: b3 :: b4 :: b5 :: b6 :: b7 :: rest =>
      some (b0 + b1 * 256 + b2 * 65536 + b3 * 16777216 + b4 * 4294967296
        + b5 * 1099511627776 + b6 * 281474976710656 + b7 * 72057594037927936, rest)
  | _ => none

/-- Splits off exactly `n` leading bytes, failing on a short buffer. -/
def takeExact (n : Nat) (l : List Nat) : Option (List Nat × List Nat) :=
  if n ≤ l.length then some (l.take n, l.drop n) else none

/-- An encoder table (2D uint32 array): a list of rows. -/
abbrev Table := List (List Nat)

/-- The column count of a table (the width of its first row; 0 if empty). -/
def colCount (t : Table) : Nat := (t.headD []).length

/-- Spec §4.G: a chunk header table serializes as
`[row-count:u4][col-count:u4][rows as uint32 little-endian]`. -/
def serializeTable (t : Table) : List Nat :=
  u32be t.length ++ u32be (colCount t) ++ t.flatMap (fun row => row.flatMap u32le)

/-- Reads one row of `cols` uint32-little-endian entries. -/
def readRow : Nat → List Nat → Option (List Nat × List Nat)
  | 0, l => some ([], l)
  | c + 1, l =>
      match readU32le l with
      | none => none
      | some (v, rest) =>
          match readRow c rest with
          | none => none
          | some (vs, rest2) => some (v :: vs, rest2)

/-- Reads `rows` rows of `cols` entries each. -/
def readRows : Nat → Nat → List Nat → Option (Table × List Nat)
  | 0, _, l => some ([], l)
  | r + 1, cols, l =>
      match readRow cols l with
      | none => none
      | some (v, rest) =>
          match readRows r cols rest with
          | none => none
          | some (vs, rest2) => some (v :: vs, rest2)

/-- Inverse of `serializeTable`. -/
def deserializeTable (l : List Nat) : Option (Table × List Nat) :=
  match readU32be l with
  | none => none
  | some (rows, r1) =>
      match readU32be r1 with
      | none => none
      | some (cols, r2) => readRows rows cols r2

/-- `Chunk` state (source `Chunk.__init__`): a version string (held as its
UTF-8 bytes), the shapes-encoder table, the byte-positions-encoder table and
the raw data buffer.  The lazily memoized decompressed caches of the source
are derived views (always recomputed here) and carry no independent state
that the serialized form retains. -/
structure Chunk where
  version : List Nat
  shapes : Table
  bytePositions : Table
  data : List Nat
deriving DecidableEq, Repr

/-- `Chunk()` — the empty chunk, at the engine's current version string. -/
def emptyChunk (ver : List Nat) : Chunk := ⟨ver, [], [], []⟩

/-- `Chunk.tobytes` (source line 291) via `serialize_chunk` (spec §4.G):
`[len(version):u4][version][shape-table][bytepos-table][data]`. -/
def Chunk.tobytes (c : Chunk) : List Nat :=
  u32be c.version.length ++ c.version
    ++ serializeTable c.shapes ++ serializeTable c.bytePositions ++ c.data

/-- `Chunk.frombuffer` (source lines 299-306): an empty buffer yields
`Chunk()` with the engine's current version `ver`; otherwise the blob is
deserialized (`deserialize_chunk`, spec §4.G) and the chunk carries the
stored version.  `none` models a deserialization failure. -/
def Chunk.frombuffer (ver : List Nat) (buf : List Nat) : Option Chunk :=
  if buf = [] then some (emptyChunk ver)
  else
    match readU32be buf with
    | none => none
    | some (n, r1) =>
        match takeExact n r1 with
        | none => none
        | some (vbytes, r2) =>
            match deserializeTable r2 with
            | none => none
            | some (shapes, r3) =>
                match deserializeTable r3 with
                | none => none
                | some (bp, r4) => some ⟨vbytes, shapes, bp, r4⟩

/-- All rows of the table fit the serialized framing: row and column counts
and entries below `2^32`, all rows of equal width. -/
def tableSerializable (t : Table) : Prop :=
  t.length < U32 ∧ colCount t < U32 ∧
    ∀ row ∈ t, row.length = colCount t ∧ ∀ v ∈ row, v < U32

instance (t : Table) : Decidable (tableSerializable t) := by
  unfold tableSerializable; infer_instance

/-- `ChunkIdEncoder.tobytes` (source line 15) via `serialize_chunkids` —
spec §4.G: `[len(version):u4][version:UTF-8][row-count:u4][rows as uint64
little-endian]`. -/
def serializeChunkIds (ver : List Nat) (t : CidTable) : List Nat :=
  u32be ver.length ++ ver ++ u32be t.length
    ++ t.flatMap (fun r => u64le r.1 ++ u64le r.2)

/-- Reads `n` chunk-id rows of two uint64-little-endian cells each. -/
def readCidRows : Nat → List Nat → Option (CidTable × List Nat)
  | 0, l => some ([], l)
  | n + 1, l =>
      match readU64le l with
      | none => none
      | some (a, l1) =>
          match readU64le l1 with
          | none => none
          | some (b, l2) =>
              match readCidRows n l2 with
              | none => none
              | some (t, l3) => some ((a, b) :: t, l3)

/-- Inverse of `serializeChunkIds`, consuming the whole buffer. -/
def deserializeChunkIds (buf : List Nat) : Option (List Nat × CidTable) :=
  match readU32be buf with
  | none => none
  | some (n, r1) =>
      match takeExact n r1 with
      | none => none
      | some (ver, r2) =>
          match readU32be r2 with
          | none => none
          | some (rows, r3) =>
              match readCidRows rows r3 with
              | none => none
              | some (t, r4) => if r4 = [] then some (ver, t) else none

/-- The id generator as the spec's sentence describes it: "a 64-bit unsigned
integer generated from a random source with the top bits truncated
(64-`UUID_SHIFT_AMOUNT` significant bits retained)" — i.e. the random value
reduced to 64 bits with `UUID_SHIFT_AMOUNT` top bits shifted away.  Stated
for comparison with `chunkIdValue`, the generator the source implements. -/
def specChunkIdValue (shift r : Nat) : Nat :=
  (r % 18446744073709551616) >>> shift

/-! ## Header encoders (shape and byte positions)

The base run-length `Encoder`, `ShapeEncoder` and `BytePositionsEncoder`
are not in the sources; they are modelled from the spec §4.A-§4.C.  A row
is `payload ++ [last-seen]`; the trailing column is
`LAST_SEEN_INDEX_COLUMN`.  Cells live in the unsigned 32-bit encoding
dtype, so stores carry an explicit `% U32`. -/

/-- The trailing (last-seen) cell of a row. -/
def rowLast (r : List Nat) : Nat := r.getLastD 0

/-- `Encoder.num_samples` for a chunk header table (spec §4.A):
`table[-1, last-column] + 1`, or `0` when empty. -/
def numSamplesT (t : Table) : Nat :=
  match t.getLast? with
  | none => 0
  | some r => rowLast r + 1

/-- `Encoder.translate_index` (spec §4.A): the `np.searchsorted` left
insertion point over the last-seen column — the first row whose last-seen
is `≥ i` (`t.length` when there is none). -/
def translateIndexT (t : Table) (i : Nat) : Nat :=
  t.findIdx (fun r => i ≤ rowLast r)

/-- The first sample index covered by row `k`: `0` for row 0, else the
previous row's last-seen `+ 1` (spec §3 "row `i` covers
`(last_seen[i-1] + 1) .. last_seen[i]`"). -/
def rowFirst (t : Table) (k : Nat) : Nat :=
  if k = 0 then 0 else rowLast (t.getD (k - 1) []) + 1

/-- Row-lookup skeleton shared by the header encoders (spec §4.A
`__getitem__`): locate the row holding sample `i`, then derive the value
from the row and the sample's offset within the row. -/
def getItemT {α : Type} (d : List Nat → Nat → α) (t : Table) (i : Nat) : α :=
  let k := translateIndexT t i
  d (t.getD k []) (i - rowFirst t k)

/-- `ShapeEncoder._derive_value` (spec §4.B): the row's payload — the row
without its trailing last-seen cell; the offset within the row is unused. -/
def shapeDeriv (r : List Nat) (_m : Nat) : List Nat := r.dropLast

/-- `ShapeEncoder.__getitem__`. -/
def shapeGetItem (t : Table) (i : Nat) : List Nat := getItemT shapeDeriv t i

/-- `BytePositionsEncoder._derive_value` (spec §4.C): for the `m`-th sample
of a row `[nbytes, start_byte, last]`,
`start = start_byte + m * nbytes` and `end = start + nbytes`. -/
def bpDeriv (r : List Nat) (m : Nat) : Nat × Nat :=
  (r.getD 1 0 + m * r.getD 0 0, r.getD 1 0 + m * r.getD 0 0 + r.getD 0 0)

/-- `BytePositionsEncoder.__getitem__`: the `[start, end)` byte range of
sample `i` within its chunk. -/
def bpGetItem (t : Table) (i : Nat) : Nat × Nat := getItemT bpDeriv t i

/-- `ShapeEncoder.register_samples(shape, n)` (spec §4.A/§4.B): values are
cast into uint32 on store; the combine condition is componentwise equality
with the last row's shape, in which case the last row's last-seen is
extended by `n`; otherwise a row `shape ++ [prev_last + n]` is appended.
On an empty table the first row covers `0..n-1` (the `n - 1` is cast into
uint32, so `n = 0` stores the sentinel `2^32 - 1`). -/
def shapeRegister (t : Table) (dims : List Nat) (n : Nat) : Table :=
  match t.getLast? with
  | none => [dims.map (· % U32) ++ [(n + U32 - 1) % U32]]
  | some r =>
      if r.dropLast = dims then
        t.dropLast ++ [r.dropLast ++ [(rowLast r + n) % U32]]
      else
        t ++ [dims.map (· % U32) ++ [(rowLast r + n) % U32]]

/-- `BytePositionsEncoder.num_bytes_encoded_under_row(-1)` (spec §4.C): the
derived end byte after the last row — `start_byte + (samples in the row) *
nbytes`; the start byte of the next appended row. -/
def bpLastEnd (t : Table) : Nat :=
  match t.getLast? with
  | none => 0
  | some r =>
      let cnt :=
        if t.length = 1 then rowLast r + 1
        else rowLast r - rowLast (t.getD (t.length - 2) [])
      r.getD 1 0 + cnt * r.getD 0 0

/-- `BytePositionsEncoder.register_samples(nbytes, n)` (spec §4.A/§4.C):
combine condition is `nbytes` equality with the last row; a fresh row is
`[nbytes, prev_end, prev_last + n]` (the first row starts at byte 0). -/
def bpRegister (t : Table) (nb n : Nat) : Table :=
  match t.getLast? with
  | none => [[nb % U32, 0, (n + U32 - 1) % U32]]
  | some r =>
      if r.getD 0 0 = nb then
        t.dropLast ++ [r.dropLast ++ [(rowLast r + n) % U32]]
      else
        t ++ [[nb % U32, bpLastEnd t % U32, (rowLast r + n) % U32]]

/-- Merging two adjacent rows whose payloads combine: keep the earlier
row's payload, extend it to the later row's last-seen (spec §4.A). -/
def mergeRow (a b : List Nat) : List Nat := a.dropLast ++ [rowLast b]

/-- Coalesce neighbouring rows whose payloads satisfy the combine
condition `m` (spec §4.A `__setitem__`: "coalesce with neighbors whose
values now match"; tables are maximally coalesced, so only rows adjacent
to a splice can actually merge). -/
def coalesceAdjacent (m : List Nat → List Nat → Bool) (t : Table) : Table :=
  t.foldr
    (fun r acc =>
      match acc with
      | [] => [r]
      | b :: rest => if m r b then mergeRow r b :: rest else r :: b :: rest)
    []

/-- Combine condition of the shape encoder: componentwise payload equality. -/
def shapeMatch (a b : List Nat) : Bool := a.dropLast == b.dropLast

/-- Combine condition of the byte-positions encoder: equal `nbytes`. -/
def bpMatch (a b : List Nat) : Bool := a.getD 0 0 == b.getD 0 0

/-- `Encoder.__setitem__(i, shape)` for the shape encoder.  Modelled from
the spec §4.A: locate row `r`; if it covers exactly `{i}`, overwrite its
payload in place; otherwise split it around `i` into up to three rows
(prefix with the old shape, singleton with the new one, suffix with the
old) and coalesce neighbours whose payloads now match.  Stored cells are
cast into uint32. -/
def shapeSetItem (t : Table) (i : Nat) (dims : List Nat) : Table :=
  let k := translateIndexT t i
  let row := t.getD k []
  let last := rowLast row
  let first := rowFirst t k
  let stored := dims.map (· % U32)
  if first = i ∧ last = i then
    t.take k ++ [stored ++ [last]] ++ t.drop (k + 1)
  else
    let pieces :=
      (if first < i then [row.dropLast ++ [(i - 1) % U32]] else [])
        ++ [stored ++ [i % U32]]
        ++ (if i < last then [row.dropLast ++ [last]] else [])
    coalesceAdjacent shapeMatch (t.take k ++ pieces ++ t.drop (k + 1))

/-- numpy uint32 in-place addition of a signed delta: wrap mod `2^32`. -/
def addWrap32 (a : Nat) (d : Int) : Nat :=
  (((a : Int) + d) % ((U32 : Nat) : Int)).toNat

/-- `BytePositionsEncoder.__setitem__(i, new_nbytes)`.  Modelled from the
spec §4.A (split/mutate plus neighbour coalescing, as for shapes) and §4.C:
resizing sample `i` shifts the `start_byte` of every subsequent row by
`new_nbytes - old_nbytes` (numpy uint32 in-place addition on the
3-column rows).  The singleton keeps sample `i`'s old start byte; the
suffix starts right after the resized sample. -/
def bpSetItem (t : Table) (i : Nat) (newNb : Nat) : Table :=
  let k := translateIndexT t i
  let row := t.getD k []
  let nb := row.getD 0 0
  let sb := row.getD 1 0
  let last := rowLast row
  let first := rowFirst t k
  let d : Int := (newNb : Int) - (nb : Int)
  let tail := (t.drop (k + 1)).map
    (fun r => [r.getD 0 0, addWrap32 (r.getD 1 0) d, rowLast r])
  if first = i ∧ last = i then
    t.take k ++ [[newNb % U32, sb, last]] ++ tail
  else
    let startI := sb + (i - first) * nb
    let pieces :=
      (if first < i then [[nb, sb, (i - 1) % U32]] else [])
        ++ [[newNb % U32, startI % U32, i % U32]]
        ++ (if i < last then [[nb, (startI + newNb) % U32, last]] else [])
    coalesceAdjacent bpMatch (t.take k ++ pieces ++ tail)

/-! ## Chunk operations (source `hub/core/chunk.py`) -/

/-- Chunk-level errors (spec §6 "Error kinds"). -/
inductive ChunkErr where
  | fullChunk
  | invalidShape
deriving DecidableEq, Repr

/-- The chunk compressions `update_sample` distinguishes: lz4 (whole-buffer)
or some sample-level codec (spec §4.F). -/
inductive ChunkCompression where
  | lz4
  | other
deriving DecidableEq, Repr

/-- `Chunk.has_space_for(num_bytes, max_data_bytes)` (source line 125):
`len(data) + num_bytes <= max_data_bytes`. -/
def hasSpaceFor (c : Chunk) (numBytes maxData : Nat) : Bool :=
  decide (c.data.length + numBytes ≤ maxData)

/-- `ffw_chunk` forward-compatibility hook (spec §4.E): a no-op when the
chunk's version matches the engine's; chunks here are taken at the current
version (`hub/core/fast_forwarding.py` is not in the sources). -/
def ffwChunk (c : Chunk) : Chunk := c

/-- `Chunk.register_sample_to_headers` (source lines 194-212): one sample
into the shapes encoder, and — when a byte count applies — into the
byte-positions encoder. -/
def registerSampleToHeaders (c : Chunk) (incomingNumBytes : Option Nat)
    (shape : List Nat) : Chunk :=
  { c with
    shapes := shapeRegister c.shapes shape 1,
    bytePositions :=
      match incomingNumBytes with
      | none => c.bytePositions
      | some nb => bpRegister c.bytePositions nb 1 }

/-- `Chunk.append_sample` (source lines 164-188): raise `FullChunkError` —
before any mutation — when the post-append size exceeds `max_data_bytes`;
otherwise run the forward-compat hook, extend `data` by the buffer and
register the sample in the two header encoders. -/
def appendSample (c : Chunk) (buffer : List Nat) (maxData : Nat)
    (shape : List Nat) : Chunk × Option ChunkErr :=
  if ¬ hasSpaceFor c buffer.length maxData then (c, some .fullChunk)
  else
    let c1 := ffwChunk c
    let c2 := { c1 with data := c1.data ++ buffer }
    (registerSampleToHeaders c2 (some buffer.length) shape, none)

/-- Python slice assignment `l[a:b] = src` on a bytearray (for `a ≤ len`):
replace the range `[a, max a b)` by `src` (which may differ in length). -/
def pySetSlice (l : List Nat) (a b : Nat) (src : List Nat) : List Nat :=
  l.take a ++ src ++ l.drop (max a b)

/-- Python slice read `l[a:b]`. -/
def pyGetSlice (l : List Nat) (a b : Nat) : List Nat := (l.take b).drop a

/-- `Chunk.update_sample` (source lines 214-278), parameterized over the
external codecs: `comp`/`decomp` stand for `lz4.frame.compress` /
`lz4.frame.decompress`, and `recompressOther` for the sample-compression
path's decompress-replace-`compress_multiple` pipeline (spec §4.F treats
codecs as external collaborators).  The dimensionality check precedes every
mutation, surfacing `TensorInvalidSampleShapeError`.  With no chunk
compression the data becomes `left ++ new_buffer ++ right` around sample
`i`'s old byte range (assembled, as in the source, by three slice
assignments into a preallocated zero buffer); with lz4 the same splice is
performed on the decompressed buffer, which is then recompressed. -/
def updateSample (comp decomp : List Nat → List Nat)
    (recompressOther : Chunk → Nat → List Nat → List Nat → List Nat)
    (c : Chunk) (i : Nat) (newBuf newShape : List Nat)
    (cc : Option ChunkCompression) : Chunk × Option ChunkErr :=
  let c0 := ffwChunk c
  if (shapeGetItem c0.shapes i).length ≠ newShape.length then
    (c0, some .invalidShape)
  else
    let newNb := newBuf.length
    let shapes1 := shapeSetItem c0.shapes i newShape
    match cc with
    | some ChunkCompression.lz4 =>
        let buf := decomp c0.data
        let old := bpGetItem c0.bytePositions i
        let left := buf.take old.1
        let right := buf.drop old.2
        let bp1 := bpSetItem c0.bytePositions i newNb
        let pos := bpGetItem bp1 i
        let z := List.replicate (left.length + newNb + right.length) 0
        let s1 := pySetSlice z 0 pos.1 left
        let s2 := pySetSlice s1 pos.1 pos.2 newBuf
        let s3 := pySetSlice s2 pos.2 s2.length right
        ({ c0 with shapes := shapes1, bytePositions := bp1, data := comp s3 }, none)
    | some ChunkCompression.other =>
        ({ c0 with shapes := shapes1,
                   data := recompressOther c0 i newBuf newShape }, none)
    | none =>
        let old := bpGetItem c0.bytePositions i
        let left := c0.data.take old.1
        let right := c0.data.drop old.2
        let bp1 := bpSetItem c0.bytePositions i newNb
        let pos := bpGetItem bp1 i
        let z := List.replicate (left.length + newNb + right.length) 0
        let s1 := pySetSlice z 0 pos.1 left
        let s2 := pySetSlice s1 pos.1 pos.2 newBuf
        let s3 := pySetSlice s2 pos.2 s2.length right
        ({ c0 with shapes := shapes1, bytePositions := bp1, data := s3 }, none)

/-- The buffer the samples live in: the raw data, or — under lz4 chunk
compression — the decompressed data. -/
def payloadBuf (decomp : List Nat → List Nat) (cc : Option ChunkCompression)
    (c : Chunk) : List Nat :=
  match cc with
  | some ChunkCompression.lz4 => decomp c.data
  | _ => c.data

/-- Reading back sample `i`'s raw bytes from a chunk (spec §2 read path):
slice the payload buffer at the byte-positions encoder's range for `i`. -/
def readSampleBytes (decomp : List Nat → List Nat)
    (cc : Option ChunkCompression) (c : Chunk) (i : Nat) : List Nat :=
  pyGetSlice (payloadBuf decomp cc c)
    (bpGetItem c.bytePositions i).1 (bpGetItem c.bytePositions i).2

/-! ## Derived views of the header tables (verification layer) -/

/-- Well-formed row order (spec §4.A invariant): with `f` the first sample
index of the region, each row's last-seen is at least the running first
index and the last-seens strictly increase. -/
def rowsSorted (f : Nat) : Table → Prop
  | [] => True
  | r :: rest => f ≤ rowLast r ∧ rowsSorted (rowLast r + 1) rest

instance instDecRowsSorted : (f : Nat) → (t : Table) → Decidable (rowsSorted f t)
  | _, [] => isTrue trivial
  | f, r :: rest =>
      match instDecRowsSorted (rowLast r + 1) rest with
      | isTrue h =>
          if hf : f ≤ rowLast r then isTrue ⟨hf, h⟩
          else isFalse (fun hc => hf hc.1)
      | isFalse h => isFalse (fun hc => h hc.2)

/-- The first sample index after a region of rows (`f` when empty). -/
def nextFirst (f : Nat) : Table → Nat
  | [] => f
  | r :: rest => nextFirst (rowLast r + 1) rest

/-- Per-sample expansion of a table region starting at sample `f` under a
derive function: each sample of each row receives its derived value. -/
def expandFrom {α : Type} (d : List Nat → Nat → α) (f : Nat) : Table → List α
  | [] => []
  | r :: rest =>
      (List.range (rowLast r + 1 - f)).map (d r) ++ expandFrom d (rowLast r + 1) rest

/-- The per-sample byte ranges of a byte-positions table. -/
def bpExpand (t : Table) : List (Nat × Nat) := expandFrom bpDeriv 0 t

/-- The per-sample shapes of a shape table. -/
def shapeExpand (t : Table) : List (List Nat) := expandFrom shapeDeriv 0 t

/-- Contiguity of a list of byte ranges (spec §8 invariant 4): the starts
chain from `s` and the final end is `e`. -/
def contigTo (s : Nat) : List (Nat × Nat) → Nat → Prop
  | [], e => s = e
  | p :: rest, e => p.1 = s ∧ contigTo p.2 rest e

instance instDecContigTo : (s : Nat) → (l : List (Nat × Nat)) → (e : Nat) →
    Decidable (contigTo s l e)
  | s, [], e => inferInstanceAs (Decidable (s = e))
  | s, p :: rest, e =>
      match instDecContigTo p.2 rest e with
      | isTrue h =>
          if h1 : p.1 = s then isTrue ⟨h1, h⟩
          else isFalse (fun hc => h1 hc.1)
      | isFalse h => isFalse (fun hc => h hc.2)

/-- `getItemT` with an explicit first-index accumulator: row 0 of the
region `t` starts at sample `f`.  `getItemT d t i = getItemTFrom d 0 t i`. -/
def getItemTFrom {α : Type} (d : List Nat → Nat → α) (f : Nat) (t : Table)
    (i : Nat) : α :=
  let k := t.findIdx (fun r => i ≤ rowLast r)
  let first := if k = 0 then f else rowLast (t.getD (k - 1) []) + 1
  d (t.getD k []) (i - first)

theorem numSamplesCid_eq_zero_iff (t : CidTable) : numSamplesCid t = 0 ↔ t = [] := by
  cases t using List.reverseRecOn with
  | nil => simp [numSamplesCid]
  | append_singleton l r => simp [numSamplesCid]

/-- Claim C5: for a non-tiled sample index `i` (it resolves to exactly one
chunk row), `translate_index_relative_to_chunks(i)` returns `i` when the
sample lies in the first row (row index 0), and otherwise returns
`i - (prev_row.last_seen + 1)`. -/
theorem cid_translate_relative_offset (t : CidTable) (i : Nat) (ls : List (Nat × Nat))
    (hls : cidGetWithRows t (i : Int) = some ls) (hone : ls.length = 1)
    (hbound : ∀ r ∈ t, r.2 + 1 < U32) :
    translateIndexRelativeToChunks t i =
      some (if cidTranslate t (i : Int) = 0 then (i : Int)
            else (i : Int) - (((t.getD (cidTranslate t (i : Int) - 1) (0, 0)).2 : Int) + 1)) := by
  have hk : cidTranslate t (i : Int) < t.length := by
    by_contra h
    rw [cidGetWithRows, dif_neg h] at hls
    exact Option.noConfusion hls
  have hhead : ls.headD (0, 0) = ((t.get ⟨_, hk⟩).1, cidTranslate t (i : Int)) := by
    rw [cidGetWithRows, dif_pos hk] at hls
    cases hls
    rfl
  unfold translateIndexRelativeToChunks
  rw [hls]
  simp only [Option.some.injEq, hone, if_true, hhead]
  by_cases h0 : cidTranslate t (i : Int) = 0
  · simp [h0]
  · have hlt : cidTranslate t (i : Int) - 1 < t.length := by omega
    have hmem : t.getD (cidTranslate t (i : Int) - 1) (0, 0) ∈ t := by
      rw [List.getD_eq_getElem t (0, 0) hlt]
      exact List.getElem_mem hlt
    have hmod : ((t.getD (cidTranslate t (i : Int) - 1) (0, 0)).2 + 1) % U32
        = (t.getD (cidTranslate t (i : Int) - 1) (0, 0)).2 + 1 :=
      Nat.mod_eq_of_lt (hbound _ hmem)
    simp only [h0, if_false, hmod]
    push_cast
    ring_nf

/-- Witness for C5: two chunks holding samples 0-1 and 2-3; sample 2 is the
first sample of the second chunk, so its in-chunk offset is 0. -/
theorem cid_translate_relative_offset_witness :
    translateIndexRelativeToChunks [(5, 1), (7, 3)] 2 = some 0 := by
  have h := cid_translate_relative_offset [(5, 1), (7, 3)] 2 [(7, 1)]
    (by decide) (by decide) (by decide)
  rw [h]
  decide

/-- Claim C6 (failing input): sample 0 is tiled across two chunks
(rows `[(10, 0), (11, 0)]`).  The spec says `_pop` must drop both rows and
return both ids, but `self[-1]` compares the unsigned last-seen column
against the literal `-1` in the tiled-continuation scan, which never
matches; `_pop` therefore takes the decrement branch, returns no ids, keeps
both rows and wraps the last row's last-seen to `2^32 - 1`. -/
theorem cid_pop_tiled_failing_input :
    cidPop [(10, 0), (11, 0)] = some ([], [(10, 0), (11, 4294967295)]) := by
  decide

/-- Claim C7 (counterexample): on an empty encoder, `generate_chunk_id` does
*not* leave `num_samples` unchanged — the `[id, -1]` sentinel row makes
`num_samples` read `2^32` (Python-int `last_seen + 1`), not `0`. -/
theorem cid_generate_changes_num_samples_on_empty :
    numSamplesCid (generateChunkId 96 (2 ^ 78 + 2 ^ 63 + 12345) []).2 ≠
      numSamplesCid ([] : CidTable) := by
  decide

/-- Claim C7 (amended): `generate_chunk_id` leaves `num_samples` unchanged on
a *non-empty* encoder (the new row covers zero samples); on an empty encoder
it writes the sentinel `[id, -1]` cast into uint32, after which
`num_samples` reads `2^32`, and a subsequent `register_samples(n)` with
`1 ≤ n ≤ 2^32` succeeds and yields `num_samples == n` through the deliberate
uint32 wrap-around in `_derive_next_last_index` (whose overflow warning the
source suppresses). -/
theorem cid_generate_then_register_num_samples
    (t : CidTable) (shift r : Nat) (n : Int)
    (ht : t ≠ []) (hlast : (t.getLastD (0, 0)).2 < U32)
    (hn1 : 1 ≤ n) (hn2 : n.toNat ≤ U32) :
    numSamplesCid (generateChunkId shift r t).2 = numSamplesCid t ∧
    (registerSamples (generateChunkId shift r []).2 n).2 = none ∧
    numSamplesCid (registerSamples (generateChunkId shift r []).2 n).1 = n.toNat := by
  refine ⟨?_, ?_, ?_⟩
  · rcases List.eq_nil_or_concat t with h | ⟨l, a, h⟩
    · exact absurd h ht
    · subst h
      simp only [List.concat_eq_append] at hlast ⊢
      have hgl : (l ++ [a]).getLast? = some a := List.getLast?_concat l
      have ha : numSamplesCid (l ++ [a]) = a.2 + 1 := by
        simp [numSamplesCid, hgl]
      have hlt : a.2 < U32 := by
        have : (l ++ [a]).getLastD (0, 0) = a := by
          simp [List.getLastD_eq_getLast?, hgl]
        rwa [this] at hlast
      have hns : numSamplesCid (l ++ [a]) ≠ 0 := by rw [ha]; omega
      rw [generateChunkId]
      simp only [if_neg hns, ha]
      have hgl2 : ((l ++ [a]) ++ [(chunkIdValue shift r, (a.2 + 1 - 1) % U32)]).getLast?
          = some (chunkIdValue shift r, (a.2 + 1 - 1) % U32) := List.getLast?_concat _
      simp [numSamplesCid, hgl2, Nat.mod_eq_of_lt hlt]
  · have hneg : ¬ (n < 0) := by omega
    have hz : ¬ (n = 0) := by omega
    simp [generateChunkId, numSamplesCid, registerSamples, hneg, hz]
  · have hneg : ¬ (n < 0) := by omega
    have hz : ¬ (n = 0) := by omega
    have hres : (registerSamples (generateChunkId shift r []).2 n).1
        = [(chunkIdValue shift r, (U32 - 1 + n.toNat) % U32)] := by
      simp [generateChunkId, numSamplesCid, registerSamples, hneg, hz]
    have hone : numSamplesCid [(chunkIdValue shift r, (U32 - 1 + n.toNat) % U32)]
        = (U32 - 1 + n.toNat) % U32 + 1 := by
      simp [numSamplesCid]
    rw [hres, hone, show U32 = 4294967296 from rfl]
    rw [show U32 = 4294967296 from rfl] at hn2
    omega

/-- Witness for C7 (amended): a one-row encoder covering sample 0, and the
empty-encoder generate-then-register flow with `n = 3`. -/
theorem cid_generate_then_register_num_samples_witness :
    numSamplesCid (generateChunkId 96 7 [(1, 0)]).2 = numSamplesCid [(1, 0)] ∧
    (registerSamples (generateChunkId 96 7 []).2 3).2 = none ∧
    numSamplesCid (registerSamples (generateChunkId 96 7 []).2 3).1 = (3 : Int).toNat :=
  cid_generate_then_register_num_samples [(1, 0)] 96 7 3
    (by decide) (by decide) (by decide) (by decide)

/-- Claim C8: `register_samples(n)` raises `ValueError` exactly when `n < 0`;
otherwise raises `ChunkIdEncoderError` exactly when no chunk id exists yet
(empty table) or when `n = 0` with fewer than two rows; `n = 0` is permitted
iff at least two rows exist; and any error leaves the table unchanged. -/
theorem cid_register_samples_validation (t : CidTable) (n : Int) :
    ((registerSamples t n).2 = some CidErr.valueErr ↔ n < 0) ∧
    (0 ≤ n → ((registerSamples t n).2 = some CidErr.chunkIdEncoderErr ↔
        (t = [] ∨ (n = 0 ∧ t.length < 2)))) ∧
    (0 ≤ n → t ≠ [] → ((registerSamples t n).2 = none ↔ (n ≠ 0 ∨ 2 ≤ t.length))) ∧
    ((registerSamples t n).2 ≠ none → (registerSamples t n).1 = t) := by
  have hzero := numSamplesCid_eq_zero_iff t
  by_cases hn : n < 0
  · simp [registerSamples, hn]
  · by_cases ht : t = []
    · have h0 : numSamplesCid t = 0 := hzero.mpr ht
      simp [registerSamples, hn, h0, ht]
    · have h0 : numSamplesCid t ≠ 0 := fun h => ht (hzero.mp h)
      have hch : numChunks t = t.length := by simp [numChunks, h0]
      by_cases hz : n = 0 ∧ t.length < 2
      · simp [registerSamples, hn, h0, hch, hz, ht]
      · rcases List.eq_nil_or_concat t with h | ⟨l, a, h⟩
        · exact absurd h ht
        · have hlast : t.getLast? = some a := by rw [h]; simp
          simp [registerSamples, hn, h0, hch, hz, hlast, ht]
          omega

/-- Witness for C8: a two-row encoder accepts `n = 0` (tile continuation). -/
theorem cid_register_samples_validation_witness :
    (registerSamples [(1, 0), (2, 0)] 0).2 = none :=
  ((cid_register_samples_validation [(1, 0), (2, 0)] 0).2.2.1
    (by decide) (by decide)).mpr (Or.inr (by decide))

/-- Claim C10: `ChunkIdEncoder.__setitem__` raises `NotImplementedError` for
every argument list and never mutates the table; rows cannot be overwritten
through the item-assignment interface. -/
theorem cid_set_item_not_implemented (t : CidTable) (args : List Int) :
    cidSetItem t args = (t, some CidErr.notImplementedErr) := rfl

theorem readU32be_u32be (n : Nat) (h : n < U32) (rest : List Nat) :
    readU32be (u32be n ++ rest) = some (n, rest) := by
  have h4 : n < 4294967296 := h
  simp only [u32be, List.cons_append, List.nil_append, readU32be,
    Option.some.injEq, Prod.mk.injEq]
  refine ⟨by omega, by simp⟩

theorem readU32le_u32le (n : Nat) (h : n < U32) (rest : List Nat) :
    readU32le (u32le n ++ rest) = some (n, rest) := by
  have h4 : n < 4294967296 := h
  simp only [u32le, List.cons_append, List.nil_append, readU32le,
    Option.some.injEq, Prod.mk.injEq]
  refine ⟨by omega, by simp⟩

theorem readU64le_u64le (n : Nat) (h : n < 18446744073709551616) (rest : List Nat) :
    readU64le (u64le n ++ rest) = some (n, rest) := by
  simp only [u64le, List.cons_append, List.nil_append, readU64le,
    Option.some.injEq, Prod.mk.injEq]
  refine ⟨by omega, by simp⟩

theorem takeExact_append (l rest : List Nat) :
    takeExact l.length (l ++ rest) = some (l, rest) := by
  unfold takeExact
  rw [if_pos (by simp)]
  rw [List.take_left, List.drop_left]

theorem readRow_roundtrip (row rest : List Nat) (h : ∀ v ∈ row, v < U32) :
    readRow row.length (row.flatMap u32le ++ rest) = some (row, rest) := by
  induction row with
  | nil => simp [readRow]
  | cons v vs ih =>
      have h1 : ∀ x ∈ vs, x < U32 := fun x hx => h x (List.mem_cons_of_mem _ hx)
      simp only [List.length_cons, List.flatMap_cons, List.append_assoc]
      simp [readRow, readU32le_u32le v (h v (List.mem_cons_self _ _)), ih h1]

theorem readRows_roundtrip (t : Table) (cols : Nat) (rest : List Nat)
    (h : ∀ row ∈ t, row.length = cols ∧ ∀ v ∈ row, v < U32) :
    readRows t.length cols (t.flatMap (fun row => row.flatMap u32le) ++ rest)
      = some (t, rest) := by
  induction t with
  | nil => simp [readRows]
  | cons r rs ih =>
      obtain ⟨hc, hb⟩ := h r (List.mem_cons_self _ _)
      have h1 : ∀ row ∈ rs, row.length = cols ∧ ∀ v ∈ row, v < U32 :=
        fun row hrow => h row (List.mem_cons_of_mem _ hrow)
      subst hc
      simp only [List.length_cons, List.flatMap_cons, List.append_assoc]
      simp [readRows, readRow_roundtrip r _ hb, ih h1]

theorem deserializeTable_serializeTable (t : Table) (rest : List Nat)
    (h : tableSerializable t) :
    deserializeTable (serializeTable t ++ rest) = some (t, rest) := by
  obtain ⟨h1, h2, h3⟩ := h
  simp only [serializeTable, deserializeTable, List.append_assoc,
    readU32be_u32be t.length h1, readU32be_u32be (colCount t) h2]
  exact readRows_roundtrip t (colCount t) rest h3

theorem readCidRows_roundtrip (t : CidTable) (rest : List Nat)
    (he : ∀ p ∈ t, p.1 < 18446744073709551616 ∧ p.2 < 18446744073709551616) :
    readCidRows t.length (t.flatMap (fun r => u64le r.1 ++ u64le r.2) ++ rest)
      = some (t, rest) := by
  induction t with
  | nil => simp [readCidRows]
  | cons p ps ih =>
      obtain ⟨ha, hb⟩ := he p (List.mem_cons_self _ _)
      have h1 : ∀ q ∈ ps, q.1 < 18446744073709551616 ∧ q.2 < 18446744073709551616 :=
        fun q hq => he q (List.mem_cons_of_mem _ hq)
      simp only [List.length_cons, List.flatMap_cons, List.append_assoc]
      simp [readCidRows, readU64le_u64le p.1 ha, readU64le_u64le p.2 hb, ih h1]

/-- Claim C1: `Chunk.frombuffer (x.tobytes())` recovers `x` structurally
(same shapes table, same byte-positions table, same data bytes, same
version), and `Chunk.frombuffer` applied to an empty buffer yields the
empty chunk. -/
theorem chunk_frombuffer_tobytes (ver : List Nat) (c : Chunk)
    (h1 : c.version.length < U32)
    (h2 : tableSerializable c.shapes) (h3 : tableSerializable c.bytePositions) :
    Chunk.frombuffer ver (Chunk.tobytes c) = some c ∧
    Chunk.frombuffer ver [] = some (emptyChunk ver) := by
  constructor
  · have hne : ¬ (Chunk.tobytes c = []) := by simp [Chunk.tobytes, u32be]
    have hs : ∀ rest, deserializeTable (serializeTable c.shapes ++ rest)
        = some (c.shapes, rest) :=
      fun rest => deserializeTable_serializeTable c.shapes rest h2
    have hbp : ∀ rest, deserializeTable (serializeTable c.bytePositions ++ rest)
        = some (c.bytePositions, rest) :=
      fun rest => deserializeTable_serializeTable c.bytePositions rest h3
    unfold Chunk.frombuffer
    rw [if_neg hne]
    simp only [Chunk.tobytes, List.append_assoc,
      readU32be_u32be c.version.length h1, takeExact_append, hs, hbp]
  · simp [Chunk.frombuffer]

/-- Witness for C1: a concrete chunk with one 2-dimensional sample. -/
theorem chunk_frombuffer_tobytes_witness :
    Chunk.frombuffer [49] (Chunk.tobytes ⟨[50], [[2, 2, 0]], [[4, 0, 0]], [7, 7, 7, 7]⟩)
      = some ⟨[50], [[2, 2, 0]], [[4, 0, 0]], [7, 7, 7, 7]⟩ :=
  (chunk_frombuffer_tobytes [49] ⟨[50], [[2, 2, 0]], [[4, 0, 0]], [7, 7, 7, 7]⟩
    (by decide) (by decide) (by decide)).1

/-- Claim C9 (counterexample): at `UUID_SHIFT_AMOUNT = 40` and the uuid4
integer `2^78 + 2^70 + 2^63 + 5` (version-4 and variant bits set), the id
the source computes is neither the spec's "64-bit source, top bits
truncated" value nor below `2^(64-40)`: the source shifts the full 128-bit
uuid and then truncates into the 32-bit encoding dtype. -/
theorem chunk_id_value_not_spec_64bit :
    chunkIdValue 40 (2 ^ 78 + 2 ^ 70 + 2 ^ 63 + 5)
        ≠ specChunkIdValue 40 (2 ^ 78 + 2 ^ 70 + 2 ^ 63 + 5) ∧
    ¬ chunkIdValue 40 (2 ^ 78 + 2 ^ 70 + 2 ^ 63 + 5) < 2 ^ (64 - 40) := by
  decide

/-- Claim C9 (amended): every generated chunk id is the 128-bit uuid4
integer shifted right by `UUID_SHIFT_AMOUNT` and truncated into the 32-bit
unsigned encoding dtype (hence always below `2^32`), and the serialized
chunk-id table stores each row cell as a little-endian uint64
(losslessly: deserialization recovers version and table). -/
theorem chunk_id_32bit_and_u64_rows (shift r : Nat) (ver : List Nat) (t : CidTable)
    (hv : ver.length < U32) (hr : t.length < U32)
    (he : ∀ p ∈ t, p.1 < 18446744073709551616 ∧ p.2 < 18446744073709551616) :
    chunkIdValue shift r < U32 ∧
    deserializeChunkIds (serializeChunkIds ver t) = some (ver, t) := by
  constructor
  · exact Nat.mod_lt _ (by decide)
  · have hbody := readCidRows_roundtrip t [] he
    rw [List.append_nil] at hbody
    simp only [serializeChunkIds, deserializeChunkIds, List.append_assoc,
      readU32be_u32be ver.length hv, takeExact_append,
      readU32be_u32be t.length hr, hbody]
    simp

/-- Witness for C9 (amended): a two-row table with a one-byte version. -/
theorem chunk_id_32bit_and_u64_rows_witness :
    chunkIdValue 96 12345 < U32 ∧
    deserializeChunkIds (serializeChunkIds [104] [(10, 0), (11, 1)])
      = some ([104], [(10, 0), (11, 1)]) :=
  chunk_id_32bit_and_u64_rows 96 12345 [104] [(10, 0), (11, 1)]
    (by decide) (by decide) (by decide)

/-- Claim C2: `has_space_for(n, max)` holds exactly when
`len(data) + n ≤ max`; `append_sample(buffer, max, shape)` raises
`FullChunkError` exactly when `len(data) + len(buffer) > max`; and when it
raises, the data buffer and both header encoders are untouched
(registration happens only after the data append, and the space check
precedes every mutation). -/
theorem chunk_append_space_check (c : Chunk) (n : Nat) (buffer : List Nat)
    (maxData : Nat) (shape : List Nat) :
    (hasSpaceFor c n maxData = true ↔ c.data.length + n ≤ maxData) ∧
    ((appendSample c buffer maxData shape).2 = some ChunkErr.fullChunk ↔
      maxData < c.data.length + buffer.length) ∧
    ((appendSample c buffer maxData shape).2 ≠ none →
      (appendSample c buffer maxData shape).1 = c) := by
  refine ⟨by simp [hasSpaceFor], ?_, ?_⟩
  · by_cases h : c.data.length + buffer.length ≤ maxData
    · simp [appendSample, hasSpaceFor, h]
    · simp [appendSample, hasSpaceFor, h]
      omega
  · by_cases h : c.data.length + buffer.length ≤ maxData
    · simp [appendSample, hasSpaceFor, h]
    · simp [appendSample, hasSpaceFor, h]

/-- Witness for C2: appending 3 bytes to an empty chunk with a 2-byte
budget raises `FullChunkError`. -/
theorem chunk_append_space_check_witness :
    (appendSample (emptyChunk [50]) [1, 2, 3] 2 [3]).2 = some ChunkErr.fullChunk :=
  ((chunk_append_space_check (emptyChunk [50]) 0 [1, 2, 3] 2 [3]).2.1).mpr (by decide)

/-- Claim C3: `update_sample` raises `TensorInvalidSampleShapeError` exactly
when the new shape's dimensionality differs from that of the existing
sample at `local_sample_index`, and when it raises — whatever the chunk
compression and codecs — the data and both header encoders are unchanged. -/
theorem chunk_update_invalid_shape (comp decomp : List Nat → List Nat)
    (recompressOther : Chunk → Nat → List Nat → List Nat → List Nat)
    (c : Chunk) (i : Nat) (newBuf newShape : List Nat)
    (cc : Option ChunkCompression) (_hi : i < numSamplesT c.shapes) :
    ((updateSample comp decomp recompressOther c i newBuf newShape cc).2
        = some ChunkErr.invalidShape ↔
      (shapeGetItem c.shapes i).length ≠ newShape.length) ∧
    (∀ e, (updateSample comp decomp recompressOther c i newBuf newShape cc).2 = some e →
      (updateSample comp decomp recompressOther c i newBuf newShape cc).1 = c) := by
  by_cases hdim : (shapeGetItem c.shapes i).length ≠ newShape.length
  · constructor
    · simp [updateSample, ffwChunk, hdim]
    · intro e
      simp [updateSample, ffwChunk, hdim]
  · constructor
    · simp only [updateSample, ffwChunk, if_neg hdim]
      rcases cc with _ | c'
      · simp [hdim]
      · cases c' <;> simp [hdim]
    · intro e
      simp only [updateSample, ffwChunk, if_neg hdim]
      rcases cc with _ | c'
      · simp
      · cases c' <;> simp

/-- Witness for C3: updating the single 2-dimensional sample with a
1-dimensional shape raises the shape error. -/
theorem chunk_update_invalid_shape_witness :
    (updateSample id id (fun c _ _ _ => c.data)
        ⟨[50], [[2, 2, 0]], [[4, 0, 0]], [9, 9, 9, 9]⟩ 0 [1] [5] none).2
      = some ChunkErr.invalidShape :=
  ((chunk_update_invalid_shape id id (fun c _ _ _ => c.data)
      ⟨[50], [[2, 2, 0]], [[4, 0, 0]], [9, 9, 9, 9]⟩ 0 [1] [5] none
      (by decide)).1).mpr (by decide)

theorem getItemT_eq_from {α : Type} (d : List Nat → Nat → α) (t : Table) (i : Nat) :
    getItemT d t i = getItemTFrom d 0 t i := rfl

theorem getItemTFrom_cons_le {α : Type} (d : List Nat → Nat → α) (f : Nat)
    (r : List Nat) (rest : Table) (i : Nat) (h : i ≤ rowLast r) :
    getItemTFrom d f (r :: rest) i = d r (i - f) := by
  have hd : (decide (i ≤ rowLast r)) = true := decide_eq_true h
  simp [getItemTFrom, List.findIdx_cons, hd]

theorem getItemTFrom_cons_gt {α : Type} (d : List Nat → Nat → α) (f : Nat)
    (r : List Nat) (rest : Table) (i : Nat) (h : ¬ i ≤ rowLast r) :
    getItemTFrom d f (r :: rest) i = getItemTFrom d (rowLast r + 1) rest i := by
  have hd : (decide (i ≤ rowLast r)) = false := decide_eq_false h
  simp only [getItemTFrom, List.findIdx_cons, hd, cond_false]
  cases hk : rest.findIdx (fun row => decide (i ≤ rowLast row)) with
  | zero => simp
  | succ m => simp [List.getD_cons_succ]

theorem nextFirst_eq (f : Nat) (t : Table) :
    nextFirst f t = match t.getLast? with | none => f | some r => rowLast r + 1 := by
  induction t generalizing f with
  | nil => rfl
  | cons r rest ih =>
      rw [nextFirst, ih]
      cases hl : rest.getLast? with
      | none =>
          have hr : rest = [] := by simpa using hl
          subst hr
          simp
      | some a =>
          have h2 : (r :: rest).getLast? = some a := by
            cases rest with
            | nil => simp at hl
            | cons b bs => simpa using hl
          simp [hl, h2]

theorem nextFirst_zero (t : Table) : nextFirst 0 t = numSamplesT t := by
  rw [nextFirst_eq]
  cases h : t.getLast? <;> simp [numSamplesT, h]

theorem nextFirst_append (f : Nat) (a b : Table) :
    nextFirst f (a ++ b) = nextFirst (nextFirst f a) b := by
  induction a generalizing f with
  | nil => rfl
  | cons r rest ih => simp [nextFirst, ih]

theorem rowsSorted_append (f : Nat) (a b : Table) :
    rowsSorted f (a ++ b) ↔ rowsSorted f a ∧ rowsSorted (nextFirst f a) b := by
  induction a generalizing f with
  | nil => simp [rowsSorted, nextFirst]
  | cons r rest ih => simp [rowsSorted, nextFirst, ih, and_assoc]

theorem expandFrom_append {α : Type} (d : List Nat → Nat → α) (f : Nat) (a b : Table) :
    expandFrom d f (a ++ b) = expandFrom d f a ++ expandFrom d (nextFirst f a) b := by
  induction a generalizing f with
  | nil => simp [expandFrom, nextFirst]
  | cons r rest ih => simp [expandFrom, nextFirst, ih]

theorem numSamplesT_cons (r : List Nat) (rest : Table) :
    numSamplesT (r :: rest) = if rest.isEmpty then rowLast r + 1 else numSamplesT rest := by
  cases rest <;> simp [numSamplesT]

theorem rowsSorted_lt_numSamples (f : Nat) (t : Table) (h : rowsSorted f t)
    (hne : t ≠ []) : f < numSamplesT t := by
  induction t generalizing f with
  | nil => exact absurd rfl hne
  | cons r rest ih =>
      obtain ⟨h1, h2⟩ := h
      cases rest with
      | nil =>
          have he : numSamplesT [r] = rowLast r + 1 := rfl
          omega
      | cons b bs =>
          have hlt := ih _ h2 (by simp)
          have he : numSamplesT (r :: b :: bs) = numSamplesT (b :: bs) := by
            rw [numSamplesT_cons]
            simp
          omega

theorem expandFrom_length {α : Type} (d : List Nat → Nat → α) (f : Nat) (t : Table)
    (h : rowsSorted f t) : (expandFrom d f t).length = numSamplesT t - f := by
  induction t generalizing f with
  | nil => simp [expandFrom, numSamplesT]
  | cons r rest ih =>
      obtain ⟨h1, h2⟩ := h
      cases rest with
      | nil =>
          have he : numSamplesT [r] = rowLast r + 1 := rfl
          simp [expandFrom, he]
      | cons b bs =>
          have hlt := rowsSorted_lt_numSamples _ _ h2 (by simp)
          have he : numSamplesT (r :: b :: bs) = numSamplesT (b :: bs) := by
            rw [numSamplesT_cons]
            simp
          rw [expandFrom, he]
          simp only [List.length_append, List.length_map, List.length_range]
          rw [ih _ h2]
          omega

theorem expandFrom_get {α : Type} (d : List Nat → Nat → α) (f : Nat) (t : Table)
    (j : Nat) (h : rowsSorted f t) (hf : f ≤ j) (hj : j < numSamplesT t) :
    (expandFrom d f t)[j - f]? = some (getItemTFrom d f t j) := by
  induction t generalizing f with
  | nil => simp [numSamplesT] at hj
  | cons r rest ih =>
      obtain ⟨h1, h2⟩ := h
      by_cases hle : j ≤ rowLast r
      · rw [getItemTFrom_cons_le d f r rest j hle, expandFrom]
        have hlt : j - f < ((List.range (rowLast r + 1 - f)).map (d r)).length := by
          simp only [List.length_map, List.length_range]
          omega
        rw [List.getElem?_append_left hlt]
        have hlt2 : j - f < rowLast r + 1 - f := by omega
        simp [List.getElem?_range hlt2]
      · rw [getItemTFrom_cons_gt d f r rest j hle]
        have hrne : rest ≠ [] := by
          intro hnil
          subst hnil
          have he : numSamplesT [r] = rowLast r + 1 := rfl
          omega
        have hj2 : j < numSamplesT rest := by
          rw [numSamplesT_cons] at hj
          cases rest with
          | nil => exact absurd rfl hrne
          | cons b bs => simpa using hj
        rw [expandFrom]
        have hge : ((List.range (rowLast r + 1 - f)).map (d r)).length ≤ j - f := by
          simp only [List.length_map, List.length_range]
          omega
        rw [List.getElem?_append_right hge]
        have heq : j - f - ((List.range (rowLast r + 1 - f)).map (d r)).length
            = j - (rowLast r + 1) := by
          simp only [List.length_map, List.length_range]
          omega
        rw [heq]
        exact ih _ h2 (by omega) hj2

theorem bpGetItem_eq_expand (t : Table) (i : Nat) (h : rowsSorted 0 t)
    (hi : i < numSamplesT t) : (bpExpand t)[i]? = some (bpGetItem t i) := by
  have he := expandFrom_get bpDeriv 0 t i h (Nat.zero_le i) hi
  simpa [bpExpand, bpGetItem, getItemT_eq_from] using he

theorem shapeGetItem_eq_expand (t : Table) (i : Nat) (h : rowsSorted 0 t)
    (hi : i < numSamplesT t) : (shapeExpand t)[i]? = some (shapeGetItem t i) := by
  have he := expandFrom_get shapeDeriv 0 t i h (Nat.zero_le i) hi
  simpa [shapeExpand, shapeGetItem, getItemT_eq_from] using he

theorem contigTo_append_iff (x y : List (Nat × Nat)) (s e : Nat) :
    contigTo s (x ++ y) e ↔ ∃ m, contigTo s x m ∧ contigTo m y e := by
  induction x generalizing s with
  | nil => simp [contigTo]
  | cons p rest ih => simp [contigTo, ih, and_assoc]

theorem contigTo_facts (l : List (Nat × Nat)) (s e : Nat) (h : contigTo s l e)
    (hwf : ∀ p ∈ l, p.1 ≤ p.2) :
    s ≤ e ∧
    (∀ (j : Nat) (p : Nat × Nat), l[j]? = some p → s ≤ p.1 ∧ p.2 ≤ e) ∧
    (∀ (j1 j2 : Nat) (p q : Nat × Nat), j1 < j2 → l[j1]? = some p → l[j2]? = some q →
      p.2 ≤ q.1) := by
  induction l generalizing s with
  | nil =>
      simp only [contigTo] at h
      subst h
      exact ⟨le_refl _, by simp, by simp⟩
  | cons a rest ih =>
      obtain ⟨ha, hrest⟩ := h
      have hwa : a.1 ≤ a.2 := hwf a (List.mem_cons_self _ _)
      obtain ⟨h1, h2, h3⟩ := ih a.2 hrest (fun p hp => hwf p (List.mem_cons_of_mem _ hp))
      subst ha
      refine ⟨le_trans hwa h1, ?_, ?_⟩
      · intro j p hp
        cases j with
        | zero =>
            simp only [List.getElem?_cons_zero, Option.some.injEq] at hp
            subst hp
            exact ⟨le_refl _, h1⟩
        | succ m =>
            simp only [List.getElem?_cons_succ] at hp
            obtain ⟨hs1, hs2⟩ := h2 m p hp
            exact ⟨le_trans hwa hs1, hs2⟩
      · intro j1 j2 p q hlt hp hq
        cases j1 with
        | zero =>
            simp only [List.getElem?_cons_zero, Option.some.injEq] at hp
            subst hp
            cases j2 with
            | zero => omega
            | succ m2 =>
                simp only [List.getElem?_cons_succ] at hq
                exact (h2 m2 q hq).1
        | succ m1 =>
            cases j2 with
            | zero => omega
            | succ m2 =>
                simp only [List.getElem?_cons_succ] at hp hq
                exact h3 m1 m2 p q (by omega) hp hq

theorem bpExpand_entry_wf (f : Nat) (t : Table) :
    ∀ p ∈ expandFrom bpDeriv f t, p.1 ≤ p.2 := by
  induction t generalizing f with
  | nil => simp [expandFrom]
  | cons r rest ih =>
      intro p hp
      rw [expandFrom] at hp
      rcases List.mem_append.mp hp with h | h
      · obtain ⟨m, _, hmp⟩ := List.mem_map.mp h
        subst hmp
        simp [bpDeriv]
      · exact ih _ p h

theorem contigTo_rangeBlock (cnt sb nb s e : Nat)
    (h : contigTo s ((List.range cnt).map
      (fun m => (sb + m * nb, sb + m * nb + nb))) e) :
    (cnt = 0 ∧ s = e) ∨ (s = sb ∧ e = sb + cnt * nb) := by
  induction cnt generalizing sb s with
  | zero =>
      left
      exact ⟨rfl, by simpa [contigTo] using h⟩
  | succ c ih =>
      have hmap : (List.range (c + 1)).map
          (fun m => (sb + m * nb, sb + m * nb + nb))
          = (sb, sb + nb) :: (List.range c).map
              (fun m => ((sb + nb) + m * nb, (sb + nb) + m * nb + nb)) := by
        rw [List.range_succ_eq_map]
        simp only [List.map_cons, List.map_map]
        congr 1
        · simp
        · apply List.map_congr_left
          intro m _
          simp only [Function.comp_apply, Nat.succ_eq_add_one, Prod.mk.injEq]
          constructor <;> ring
      rw [hmap] at h
      obtain ⟨h0, h1⟩ := h
      have hrec := ih (sb + nb) (sb + nb) h1
      have he : e = (sb + nb) + c * nb := by
        rcases hrec with ⟨hc, hse⟩ | ⟨_, hse⟩
        · subst hc
          omega
        · omega
      right
      refine ⟨by omega, by rw [he]; ring⟩

theorem bpExpand_row_start_mem (f : Nat) (B : Table) (hs : rowsSorted f B) :
    ∀ r ∈ B, (r.getD 1 0, r.getD 1 0 + r.getD 0 0) ∈ expandFrom bpDeriv f B := by
  induction B generalizing f with
  | nil => simp
  | cons a rest ih =>
      intro r hr
      rw [expandFrom]
      rcases List.mem_cons.mp hr with heq | hr2
      · subst heq
        apply List.mem_append_left
        apply List.mem_map.mpr
        refine ⟨0, List.mem_range.mpr (by have := hs.1; omega), by simp [bpDeriv]⟩
      · exact List.mem_append_right _ (ih _ hs.2 r hr2)

theorem bpExpand_row_bounds (f s e : Nat) (B : Table) (hs : rowsSorted f B)
    (hc : contigTo s (expandFrom bpDeriv f B) e) :
    ∀ r ∈ B, s ≤ r.getD 1 0 ∧ r.getD 1 0 + r.getD 0 0 ≤ e := by
  intro r hr
  obtain ⟨j, hj⟩ := List.mem_iff_getElem?.mp (bpExpand_row_start_mem f B hs r hr)
  exact (contigTo_facts _ _ _ hc (bpExpand_entry_wf f B)).2.1 j _ hj

theorem addWrap32_eq (a nb newNb : Nat) (h1 : nb ≤ a + newNb)
    (h2 : a + newNb < U32 + nb) :
    addWrap32 a ((newNb : Int) - (nb : Int)) = a + newNb - nb := by
  unfold addWrap32
  have hx : (a : Int) + ((newNb : Int) - (nb : Int))
      = ((a + newNb - nb : Nat) : Int) := by
    rw [Nat.cast_sub h1]
    push_cast
    ring
  rw [hx]
  rw [Int.emod_eq_of_lt (by positivity) (by exact_mod_cast (by omega : a + newNb - nb < U32))]
  simp

theorem expandFrom_shift (B : Table) (f nb newNb : Nat)
    (hb : ∀ r ∈ B, nb ≤ r.getD 1 0 + newNb ∧ r.getD 1 0 + newNb < U32 + nb) :
    expandFrom bpDeriv f (B.map
        (fun r => [r.getD 0 0, addWrap32 (r.getD 1 0) ((newNb : Int) - (nb : Int)),
          rowLast r]))
      = (expandFrom bpDeriv f B).map
          (fun p => (p.1 + newNb - nb, p.2 + newNb - nb)) := by
  induction B generalizing f with
  | nil => simp [expandFrom]
  | cons r rest ih =>
      obtain ⟨h1, h2⟩ := hb r (List.mem_cons_self _ _)
      have hlast : rowLast [r.getD 0 0,
          addWrap32 (r.getD 1 0) ((newNb : Int) - (nb : Int)), rowLast r]
          = rowLast r := rfl
      rw [List.map_cons, expandFrom, expandFrom, List.map_append, hlast]
      congr 1
      · rw [List.map_map]
        apply List.map_congr_left
        intro m _
        simp only [bpDeriv, Function.comp_apply]
        have hget0 : ([r.getD 0 0,
            addWrap32 (r.getD 1 0) ((newNb : Int) - (nb : Int)),
            rowLast r] : List Nat).getD 0 0 = r.getD 0 0 := rfl
        have hget1 : ([r.getD 0 0,
            addWrap32 (r.getD 1 0) ((newNb : Int) - (nb : Int)),
            rowLast r] : List Nat).getD 1 0
            = addWrap32 (r.getD 1 0) ((newNb : Int) - (nb : Int)) := rfl
        rw [hget0, hget1, addWrap32_eq _ _ _ h1 h2]
        generalize m * r.getD 0 0 = q
        simp only [Prod.mk.injEq]
        constructor <;> omega
      · exact ih _ (fun q hq => hb q (List.mem_cons_of_mem _ hq))

theorem nextFirst_ne (f : Nat) (A : Table) (hne : A ≠ []) :
    nextFirst f A = rowLast (A.getLastD []) + 1 := by
  rw [nextFirst_eq]
  cases h : A.getLast? with
  | none => exact absurd (by simpa using h) hne
  | some a => simp [List.getLastD_eq_getLast?, h]

theorem findRow_decomp (f : Nat) (t : Table) (i : Nat) (h : rowsSorted f t)
    (hf : f ≤ i) (hi : i < numSamplesT t) :
    ∃ A row B, t = A ++ row :: B ∧
      A.length = t.findIdx (fun r => i ≤ rowLast r) ∧
      nextFirst f A ≤ i ∧ i ≤ rowLast row := by
  induction t generalizing f with
  | nil => simp [numSamplesT] at hi
  | cons r rest ih =>
      obtain ⟨h1, h2⟩ := h
      by_cases hle : i ≤ rowLast r
      · have hd : (decide (i ≤ rowLast r)) = true := decide_eq_true hle
        exact ⟨[], r, rest, rfl, by simp [List.findIdx_cons, hd], by simpa [nextFirst], hle⟩
      · have hd : (decide (i ≤ rowLast r)) = false := decide_eq_false hle
        have hrne : rest ≠ [] := by
          intro hnil
          subst hnil
          have he : numSamplesT [r] = rowLast r + 1 := rfl
          omega
        have hi2 : i < numSamplesT rest := by
          rw [numSamplesT_cons] at hi
          cases rest with
          | nil => exact absurd rfl hrne
          | cons b bs => simpa using hi
        obtain ⟨A, row, B, he, hlen, hnf, hrow⟩ := ih (rowLast r + 1) h2 (by omega) hi2
        refine ⟨r :: A, row, B, by rw [he]; rfl, ?_, by simpa [nextFirst] using hnf, hrow⟩
        simp [List.findIdx_cons, hd, hlen]

/-- The row holding sample `i`, with everything the set-item proofs need:
the table splits as `A ++ row :: B` at the translate index, the slice
accessors evaluate on the pieces, and the pieces stay sorted. -/
theorem locatedRow (t : Table) (i : Nat) (h : rowsSorted 0 t)
    (hi : i < numSamplesT t) :
    ∃ A row B, t = A ++ row :: B ∧
      translateIndexT t i = A.length ∧
      t.getD (translateIndexT t i) [] = row ∧
      t.take (translateIndexT t i) = A ∧
      t.drop (translateIndexT t i + 1) = B ∧
      rowFirst t (translateIndexT t i) = nextFirst 0 A ∧
      nextFirst 0 A ≤ i ∧ i ≤ rowLast row ∧
      rowsSorted 0 A ∧ rowsSorted (nextFirst 0 A) (row :: B) := by
  obtain ⟨A, row, B, he, hlen, hnf, hrow⟩ :=
    findRow_decomp 0 t i h (Nat.zero_le i) hi
  have hk : translateIndexT t i = A.length := by
    rw [translateIndexT, ← hlen]
  have hsplit : rowsSorted 0 A ∧ rowsSorted (nextFirst 0 A) (row :: B) := by
    rw [he] at h
    exact (rowsSorted_append 0 A (row :: B)).mp h
  have hget : t.getD (translateIndexT t i) [] = row := by
    rw [hk, he, List.getD_eq_getElem?_getD,
      List.getElem?_append_right (le_refl A.length)]
    simp
  have htake : t.take (translateIndexT t i) = A := by
    rw [hk, he]
    exact List.take_left' rfl
  have hdrop : t.drop (translateIndexT t i + 1) = B := by
    rw [hk, he, show A ++ row :: B = (A ++ [row]) ++ B by simp]
    exact List.drop_left' (by simp)
  have hfirst : rowFirst t (translateIndexT t i) = nextFirst 0 A := by
    rw [hk, rowFirst]
    by_cases hA : A.length = 0
    · have : A = [] := List.length_eq_zero.mp hA
      subst this
      simp [nextFirst]
    · have hAne : A ≠ [] := by
        intro hnil
        subst hnil
        simp at hA
      rw [if_neg hA, nextFirst_ne 0 A hAne]
      congr 1
      rw [he, List.getD_eq_getElem?_getD,
        List.getElem?_append_left (by omega), List.getLastD_eq_getLast?,
        List.getLast?_eq_getElem? A]
  exact ⟨A, row, B, he, hk, hget, htake, hdrop, hfirst, hnf, hrow,
    hsplit.1, hsplit.2⟩

theorem rowLast_mergeRow (a b : List Nat) : rowLast (mergeRow a b) = rowLast b := by
  simp [mergeRow, rowLast, List.getLastD_concat]

theorem coalesceAdjacent_cons (m : List Nat → List Nat → Bool) (r : List Nat)
    (rest : Table) :
    coalesceAdjacent m (r :: rest) =
      match coalesceAdjacent m rest with
      | [] => [r]
      | b :: rest2 => if m r b then mergeRow r b :: rest2 else r :: b :: rest2 := rfl

theorem shape_block_const (r : List Nat) (n : Nat) :
    (List.range n).map (shapeDeriv r) = List.replicate n r.dropLast := by
  have h := List.map_const' (List.range n) r.dropLast
  rw [List.length_range] at h
  exact h

theorem coalesce_shape (f : Nat) (l : Table) (hs : rowsSorted f l) :
    expandFrom shapeDeriv f (coalesceAdjacent shapeMatch l)
      = expandFrom shapeDeriv f l ∧
    rowsSorted f (coalesceAdjacent shapeMatch l) := by
  induction l generalizing f with
  | nil => exact ⟨rfl, trivial⟩
  | cons r rest ih =>
      obtain ⟨h1, h2⟩ := hs
      obtain ⟨ihe, ihs⟩ := ih _ h2
      rw [coalesceAdjacent_cons]
      cases hacc : coalesceAdjacent shapeMatch rest with
      | nil =>
          have hre : expandFrom shapeDeriv (rowLast r + 1) rest = [] := by
            rw [← ihe, hacc, expandFrom]
          refine ⟨?_, h1, trivial⟩
          conv_lhs => rw [expandFrom]
          conv_rhs => rw [expandFrom]
          rw [hre, expandFrom]
      | cons b rest2 =>
          have hre : expandFrom shapeDeriv (rowLast r + 1) (b :: rest2)
              = expandFrom shapeDeriv (rowLast r + 1) rest := by
            rw [← hacc]
            exact ihe
          have hss : rowsSorted (rowLast r + 1) (b :: rest2) := by
            rw [← hacc]
            exact ihs
          obtain ⟨hb1, hb2⟩ := hss
          by_cases hm : shapeMatch r b
          · simp only [if_pos hm]
            have hpay : b.dropLast = r.dropLast :=
              (eq_of_beq (by simpa [shapeMatch] using hm)).symm
            constructor
            · conv_lhs => rw [expandFrom]
              conv_rhs => rw [expandFrom]
              rw [← hre]
              conv_rhs => rw [expandFrom]
              rw [rowLast_mergeRow]
              have hmg : (List.range (rowLast b + 1 - f)).map (shapeDeriv (mergeRow r b))
                  = List.replicate (rowLast b + 1 - f) r.dropLast := by
                have h := shape_block_const (mergeRow r b) (rowLast b + 1 - f)
                rwa [show (mergeRow r b).dropLast = r.dropLast from List.dropLast_concat] at h
              rw [hmg, shape_block_const, shape_block_const, hpay]
              rw [show rowLast b + 1 - f
                  = (rowLast r + 1 - f) + (rowLast b + 1 - (rowLast r + 1)) by omega]
              rw [List.replicate_add, List.append_assoc]
            · refine ⟨?_, ?_⟩
              · rw [rowLast_mergeRow]
                omega
              · rw [rowLast_mergeRow]
                exact hb2
          · simp only [if_neg hm]
            constructor
            · conv_lhs => rw [expandFrom]
              conv_rhs => rw [expandFrom]
              rw [hre]
            · exact ⟨h1, by rw [← hacc]; exact ihs⟩

theorem bpDeriv_mergeRow (r b : List Nat) (h3 : r.length = 3) (m : Nat) :
    bpDeriv (mergeRow r b) m = bpDeriv r m := by
  obtain ⟨x, y, z, hxyz⟩ := List.length_eq_three.mp h3
  subst hxyz
  rfl

theorem rangeBlock_split (sb nb a b : Nat) :
    (List.range (a + b)).map (fun m => (sb + m * nb, sb + m * nb + nb))
      = (List.range a).map (fun m => (sb + m * nb, sb + m * nb + nb))
        ++ (List.range b).map (fun m =>
            ((sb + a * nb) + m * nb, (sb + a * nb) + m * nb + nb)) := by
  rw [List.range_add, List.map_append, List.map_map]
  congr 1
  apply List.map_congr_left
  intro m _
  simp only [Function.comp_apply, Prod.mk.injEq]
  constructor <;> ring

theorem coalesce_bp (f s e : Nat) (l : Table) (hs : rowsSorted f l)
    (hw : ∀ r ∈ l, r.length = 3)
    (hc : contigTo s (expandFrom bpDeriv f l) e) :
    expandFrom bpDeriv f (coalesceAdjacent bpMatch l) = expandFrom bpDeriv f l ∧
    rowsSorted f (coalesceAdjacent bpMatch l) := by
  induction l generalizing f s with
  | nil => exact ⟨rfl, trivial⟩
  | cons r rest ih =>
      obtain ⟨h1, h2⟩ := hs
      rw [expandFrom] at hc
      obtain ⟨m0, hcr, hcrest⟩ := (contigTo_append_iff _ _ _ _).mp hc
      obtain ⟨ihe, ihs⟩ :=
        ih _ _ h2 (fun q hq => hw q (List.mem_cons_of_mem _ hq)) hcrest
      rw [coalesceAdjacent_cons]
      cases hacc : coalesceAdjacent bpMatch rest with
      | nil =>
          have hre : expandFrom bpDeriv (rowLast r + 1) rest = [] := by
            rw [← ihe, hacc, expandFrom]
          refine ⟨?_, h1, trivial⟩
          conv_lhs => rw [expandFrom]
          conv_rhs => rw [expandFrom]
          rw [hre, expandFrom]
      | cons b rest2 =>
          have hre : expandFrom bpDeriv (rowLast r + 1) (b :: rest2)
              = expandFrom bpDeriv (rowLast r + 1) rest := by
            rw [← hacc]
            exact ihe
          have hss : rowsSorted (rowLast r + 1) (b :: rest2) := by
            rw [← hacc]
            exact ihs
          obtain ⟨hb1, hb2⟩ := hss
          by_cases hm : bpMatch r b
          · simp only [if_pos hm]
            have hnb : b.getD 0 0 = r.getD 0 0 :=
              (eq_of_beq (by simpa [bpMatch] using hm)).symm
            have hrb := contigTo_rangeBlock (rowLast r + 1 - f) (r.getD 1 0)
              (r.getD 0 0) s m0 hcr
            have hm0 : s = r.getD 1 0 ∧
                m0 = r.getD 1 0 + (rowLast r + 1 - f) * r.getD 0 0 := by
              rcases hrb with ⟨hc0, _⟩ | hok
              · omega
              · exact hok
            have hcb : contigTo m0
                (expandFrom bpDeriv (rowLast r + 1) (b :: rest2)) e := by
              rw [hre]
              exact hcrest
            rw [expandFrom] at hcb
            obtain ⟨cb, hcb_eq⟩ : ∃ cb, rowLast b + 1 - (rowLast r + 1) = cb + 1 :=
              ⟨rowLast b - (rowLast r + 1), by omega⟩
            rw [hcb_eq, List.range_succ_eq_map, List.map_cons] at hcb
            have hsbb : b.getD 1 0 = m0 := by
              obtain ⟨hx, _⟩ := hcb
              simpa [bpDeriv] using hx
            constructor
            · conv_lhs => rw [expandFrom]
              conv_rhs => rw [expandFrom]
              rw [← hre]
              conv_rhs => rw [expandFrom]
              rw [rowLast_mergeRow]
              have hmg : (List.range (rowLast b + 1 - f)).map (bpDeriv (mergeRow r b))
                  = (List.range (rowLast b + 1 - f)).map (bpDeriv r) :=
                List.map_congr_left
                  (fun m _ => bpDeriv_mergeRow r b (hw r (List.mem_cons_self _ _)) m)
              rw [hmg]
              have hbsplit : (List.range (rowLast b + 1 - f)).map (bpDeriv r)
                  = (List.range (rowLast r + 1 - f)).map (bpDeriv r)
                    ++ (List.range (rowLast b + 1 - (rowLast r + 1))).map (bpDeriv b) := by
                have hcount : rowLast b + 1 - f
                    = (rowLast r + 1 - f) + (rowLast b + 1 - (rowLast r + 1)) := by
                  omega
                rw [hcount]
                have hsplit := rangeBlock_split (r.getD 1 0) (r.getD 0 0)
                  (rowLast r + 1 - f) (rowLast b + 1 - (rowLast r + 1))
                rw [show (List.range ((rowLast r + 1 - f)
                    + (rowLast b + 1 - (rowLast r + 1)))).map (bpDeriv r)
                    = (List.range ((rowLast r + 1 - f)
                    + (rowLast b + 1 - (rowLast r + 1)))).map
                      (fun m => (r.getD 1 0 + m * r.getD 0 0,
                        r.getD 1 0 + m * r.getD 0 0 + r.getD 0 0)) from rfl]
                rw [hsplit]
                congr 1
                apply List.map_congr_left
                intro m _
                simp only [bpDeriv, Prod.mk.injEq, hnb, hsbb, hm0.2]
              rw [hbsplit, List.append_assoc]
            · refine ⟨?_, ?_⟩
              · rw [rowLast_mergeRow]
                omega
              · rw [rowLast_mergeRow]
                exact hb2
          · simp only [if_neg hm]
            constructor
            · conv_lhs => rw [expandFrom]
              conv_rhs => rw [expandFrom]
              rw [hre]
            · exact ⟨h1, by rw [← hacc]; exact ihs⟩

theorem rowLast_concat (l : List Nat) (a : Nat) : rowLast (l ++ [a]) = a := by
  simp [rowLast, List.getLastD_concat]

theorem rowLast_three (a b c : Nat) : rowLast [a, b, c] = c := rfl

theorem rowsSorted_shiftRows (f : Nat) (B : Table) (d : Int) (h : rowsSorted f B) :
    rowsSorted f (B.map
      (fun r => [r.getD 0 0, addWrap32 (r.getD 1 0) d, rowLast r])) := by
  induction B generalizing f with
  | nil => trivial
  | cons r rest ih => exact ⟨h.1, ih _ h.2⟩

theorem contigTo_map_shift (l : List (Nat × Nat)) (s e a b : Nat)
    (h : contigTo s l e) :
    contigTo (s + a - b) (l.map (fun p => (p.1 + a - b, p.2 + a - b))) (e + a - b) := by
  induction l generalizing s with
  | nil =>
      simp only [contigTo] at h
      subst h
      rfl
  | cons p rest ih =>
      obtain ⟨h1, h2⟩ := h
      exact ⟨by simp [h1], ih _ h2⟩

theorem contigTo_split_at (l : List (Nat × Nat)) (s e : Nat) (n : Nat)
    (h : contigTo s l e) (p : Nat × Nat) (hp : l[n]? = some p) :
    contigTo s (l.take n) p.1 ∧ contigTo p.1 (l.drop n) e := by
  have hn : n < l.length := by
    by_contra hc
    rw [List.getElem?_eq_none (by omega)] at hp
    exact Option.noConfusion hp
  have hsplit : l = l.take n ++ l.drop n := (List.take_append_drop n l).symm
  obtain ⟨m, hm1, hm2⟩ := (contigTo_append_iff (l.take n) (l.drop n) s e).mp
    (by rw [← hsplit]; exact h)
  have hdrop : l.drop n = p :: l.drop (n + 1) := by
    rw [List.drop_eq_getElem_cons hn]
    congr 1
    have := List.getElem?_eq_getElem hn
    rw [this] at hp
    exact Option.some.inj hp
  rw [hdrop] at hm2
  obtain ⟨hm3, hm4⟩ := hm2
  subst hm3
  rw [hdrop]
  exact ⟨hm1, rfl, hm4⟩

theorem bpSetItem_expand (t : Table) (i newNb E : Nat)
    (hs : rowsSorted 0 t) (hw : ∀ r ∈ t, r.length = 3)
    (hi : i < numSamplesT t) (hn32 : numSamplesT t ≤ U32)
    (hc : contigTo 0 (bpExpand t) E) (hb : E + newNb < U32) :
    ∃ si nbi,
      (bpExpand t)[i]? = some (si, si + nbi) ∧
      bpExpand (bpSetItem t i newNb)
        = (bpExpand t).take i ++ [(si, si + newNb)]
          ++ ((bpExpand t).drop (i + 1)).map
              (fun p => (p.1 + newNb - nbi, p.2 + newNb - nbi)) ∧
      rowsSorted 0 (bpSetItem t i newNb) ∧
      numSamplesT (bpSetItem t i newNb) = numSamplesT t := by
  obtain ⟨A, row, B, he, hk, hget, htake, hdrop, hfirst, hnf, hrowle, hsA, hsRB⟩ :=
    locatedRow t i hs hi
  obtain ⟨hfle, hBs⟩ := hsRB
  have hw_row : row.length = 3 := by
    apply hw
    rw [he]
    exact List.mem_append_right _ (List.mem_cons_self _ _)
  obtain ⟨nb0, sb0, lr0, hrq⟩ := List.length_eq_three.mp hw_row
  subst hrq
  have hrl : rowLast [nb0, sb0, lr0] = lr0 := rfl
  rw [hrl] at hfle hrowle hBs
  have hiU : i < U32 := lt_of_lt_of_le hi hn32
  have hm1 : i % U32 = i := Nat.mod_eq_of_lt hiU
  have hm2 : (i - 1) % U32 = i - 1 := Nat.mod_eq_of_lt (by omega)
  have hfa : nextFirst 0 A = numSamplesT A := nextFirst_zero A
  have hlenA : (expandFrom bpDeriv 0 A).length = nextFirst 0 A := by
    rw [expandFrom_length _ _ _ hsA]
    omega
  have hPdecomp : bpExpand t
      = expandFrom bpDeriv 0 A
        ++ ((List.range (lr0 + 1 - nextFirst 0 A)).map
              (fun m => (sb0 + m * nb0, sb0 + m * nb0 + nb0))
            ++ expandFrom bpDeriv (lr0 + 1) B) := by
    rw [bpExpand, he, expandFrom_append, expandFrom]
    rfl
  have hcd := hc
  rw [hPdecomp] at hcd
  obtain ⟨m1, hcEA, hcRest⟩ := (contigTo_append_iff _ _ _ _).mp hcd
  obtain ⟨m2, hcBlock, hcER⟩ := (contigTo_append_iff _ _ _ _).mp hcRest
  obtain ⟨hm1v, hm2v⟩ : m1 = sb0 ∧ m2 = sb0 + (lr0 + 1 - nextFirst 0 A) * nb0 := by
    rcases contigTo_rangeBlock _ _ _ _ _ hcBlock with ⟨hz, _⟩ | hok
    · omega
    · exact hok
  have hPi : (bpExpand t)[i]?
      = some (sb0 + (i - nextFirst 0 A) * nb0,
          sb0 + (i - nextFirst 0 A) * nb0 + nb0) := by
    rw [hPdecomp]
    rw [List.getElem?_append_right (by rw [hlenA]; exact hnf)]
    have hidx : i - (expandFrom bpDeriv 0 A).length = i - nextFirst 0 A := by
      rw [hlenA]
    rw [hidx]
    rw [List.getElem?_append_left (by
      simp only [List.length_map, List.length_range]
      omega)]
    have hlt : i - nextFirst 0 A < lr0 + 1 - nextFirst 0 A := by omega
    simp [List.getElem?_range hlt]
  have hfacts := contigTo_facts (bpExpand t) 0 E hc (bpExpand_entry_wf 0 t)
  have hsiE : sb0 + (i - nextFirst 0 A) * nb0 + nb0 ≤ E := (hfacts.2.1 i _ hPi).2
  have hnewm : newNb % U32 = newNb := Nat.mod_eq_of_lt (by omega)
  have hsim : (sb0 + (i - nextFirst 0 A) * nb0) % U32
      = sb0 + (i - nextFirst 0 A) * nb0 := Nat.mod_eq_of_lt (by omega)
  have hsinm : (sb0 + (i - nextFirst 0 A) * nb0 + newNb) % U32
      = sb0 + (i - nextFirst 0 A) * nb0 + newNb := Nat.mod_eq_of_lt (by omega)
  have hrowB := bpExpand_row_bounds (lr0 + 1) m2 E B hBs hcER
  have hm2ge : nb0 ≤ m2 := by
    obtain ⟨c, hcq⟩ : ∃ c, lr0 + 1 - nextFirst 0 A = c + 1 :=
      ⟨lr0 - nextFirst 0 A, by omega⟩
    have hcm : m2 = sb0 + (c * nb0 + nb0) := by
      rw [hm2v, hcq]
      ring
    omega
  have hshiftB : ∀ r ∈ B,
      nb0 ≤ r.getD 1 0 + newNb ∧ r.getD 1 0 + newNb < U32 + nb0 := by
    intro r hr
    obtain ⟨hr1, hr2⟩ := hrowB r hr
    omega
  have hshift := expandFrom_shift B (lr0 + 1) nb0 newNb hshiftB
  have htakeP : (bpExpand t).take i
      = expandFrom bpDeriv 0 A
        ++ (List.range (i - nextFirst 0 A)).map
            (fun m => (sb0 + m * nb0, sb0 + m * nb0 + nb0)) := by
    rw [hPdecomp, show i
        = (expandFrom bpDeriv 0 A).length + (i - nextFirst 0 A) by
      rw [hlenA]; omega]
    rw [List.take_append]
    congr 1
    rw [List.take_append_of_le_length (by
      simp only [List.length_map, List.length_range]
      omega)]
    rw [← List.map_take, List.take_range]
    congr 2
    omega
  have hdropP : (bpExpand t).drop (i + 1)
      = (List.range (lr0 - i)).map
          (fun m => ((sb0 + (i - nextFirst 0 A) * nb0 + nb0) + m * nb0,
            (sb0 + (i - nextFirst 0 A) * nb0 + nb0) + m * nb0 + nb0))
        ++ expandFrom bpDeriv (lr0 + 1) B := by
    rw [hPdecomp, show i + 1
        = (expandFrom bpDeriv 0 A).length + (i + 1 - nextFirst 0 A) by
      rw [hlenA]; omega]
    rw [List.drop_append]
    rw [List.drop_append_of_le_length (by
      simp only [List.length_map, List.length_range]
      omega)]
    rw [← List.map_drop]
    rw [show i + 1 - nextFirst 0 A = (i - nextFirst 0 A) + 1 by omega]
    rw [show lr0 + 1 - nextFirst 0 A
        = ((i - nextFirst 0 A) + 1) + (lr0 - i) by omega]
    rw [List.range_add]
    rw [List.drop_left' (by rw [List.length_range])]
    rw [List.map_map]
    congr 1
    apply List.map_congr_left
    intro m _
    simp only [Function.comp_apply, Prod.mk.injEq]
    constructor <;> ring
  have hPlen : (bpExpand t).length = numSamplesT t := by
    rw [bpExpand, expandFrom_length _ _ _ hs]
    omega
  have hnumlen : ∀ t2 : Table, rowsSorted 0 t2 →
      (bpExpand t2).length = (bpExpand t).length →
      numSamplesT t2 = numSamplesT t := by
    intro t2 hs2 hlen
    have h1 : (bpExpand t2).length = numSamplesT t2 := by
      rw [bpExpand, expandFrom_length _ _ _ hs2]
      omega
    omega
  have hlenRHS : ((bpExpand t).take i
      ++ [(sb0 + (i - nextFirst 0 A) * nb0,
            sb0 + (i - nextFirst 0 A) * nb0 + newNb)]
      ++ ((bpExpand t).drop (i + 1)).map
          (fun p => (p.1 + newNb - nb0, p.2 + newNb - nb0))).length
      = (bpExpand t).length := by
    simp only [List.length_append, List.length_take, List.length_cons,
      List.length_nil, List.length_map, List.length_drop]
    omega
  simp only [bpSetItem, hget, htake, hdrop, hfirst]
  have hg0 : ([nb0, sb0, lr0] : List Nat).getD 0 0 = nb0 := rfl
  have hg1 : ([nb0, sb0, lr0] : List Nat).getD 1 0 = sb0 := rfl
  simp only [hg0, hg1, hrl]
  refine ⟨sb0 + (i - nextFirst 0 A) * nb0, nb0, hPi, ?_⟩
  by_cases hcond : nextFirst 0 A = i ∧ lr0 = i
  · simp only [if_pos hcond]
    obtain ⟨hc1, hc2⟩ := hcond
    have hdz : i - nextFirst 0 A = 0 := by omega
    have hsorted : rowsSorted 0 (A ++ [[newNb % U32, sb0, lr0]]
        ++ B.map (fun r => [r.getD 0 0,
            addWrap32 (r.getD 1 0) ((newNb : Int) - (nb0 : Int)), rowLast r])) := by
      rw [List.append_assoc, rowsSorted_append, List.singleton_append]
      refine ⟨hsA, ?_, ?_⟩
      · show nextFirst 0 A ≤ rowLast [newNb % U32, sb0, lr0]
        rw [rowLast_three]
        omega
      · show rowsSorted (rowLast [newNb % U32, sb0, lr0] + 1) _
        exact rowsSorted_shiftRows _ _ _ hBs
    have hEq : bpExpand (A ++ [[newNb % U32, sb0, lr0]]
        ++ B.map (fun r => [r.getD 0 0,
            addWrap32 (r.getD 1 0) ((newNb : Int) - (nb0 : Int)), rowLast r]))
        = (bpExpand t).take i
          ++ [(sb0 + (i - nextFirst 0 A) * nb0,
                sb0 + (i - nextFirst 0 A) * nb0 + newNb)]
          ++ ((bpExpand t).drop (i + 1)).map
              (fun p => (p.1 + newNb - nb0, p.2 + newNb - nb0)) := by
      rw [htakeP, hdropP, hdz, show lr0 - i = 0 by omega]
      simp only [List.range_zero, List.map_nil, List.append_nil,
        List.nil_append, Nat.zero_mul, Nat.add_zero]
      rw [bpExpand, List.append_assoc, expandFrom_append,
        List.singleton_append, expandFrom]
      rw [rowLast_three]
      rw [hshift]
      have hblock : (List.range (lr0 + 1 - nextFirst 0 A)).map
          (bpDeriv [newNb % U32, sb0, lr0]) = [(sb0, sb0 + newNb)] := by
        rw [show lr0 + 1 - nextFirst 0 A = 1 by omega]
        have : bpDeriv [newNb % U32, sb0, lr0] 0 = (sb0, sb0 + newNb) := by
          simp [bpDeriv, hnewm]
        rw [show (List.range 1) = [0] from rfl, List.map_cons, List.map_nil, this]
      rw [hblock]
      simp [List.append_assoc]
    refine ⟨hEq, hsorted, ?_⟩
    apply hnumlen _ hsorted
    rw [hEq]
    rw [hdz] at hlenRHS
    simpa using hlenRHS
  · simp only [if_neg hcond]
    have hpiece_sorted : rowsSorted (nextFirst 0 A)
        ((if nextFirst 0 A < i then [[nb0, sb0, (i - 1) % U32]] else [])
          ++ [[newNb % U32, (sb0 + (i - nextFirst 0 A) * nb0) % U32, i % U32]]
          ++ (if i < lr0
              then [[nb0, (sb0 + (i - nextFirst 0 A) * nb0 + newNb) % U32, lr0]]
              else [])) := by
      by_cases hpre : nextFirst 0 A < i <;> by_cases hsuf : i < lr0
      · simp only [if_pos hpre, if_pos hsuf, hm1, hm2, List.cons_append,
          List.nil_append]
        refine ⟨?_, ?_, ?_, trivial⟩ <;> simp only [rowLast_three] <;> omega
      · simp only [if_pos hpre, if_neg hsuf, hm1, hm2, List.cons_append,
          List.nil_append, List.append_nil]
        refine ⟨?_, ?_, trivial⟩ <;> simp only [rowLast_three] <;> omega
      · simp only [if_neg hpre, if_pos hsuf, hm1, hm2, List.cons_append,
          List.nil_append]
        refine ⟨?_, ?_, trivial⟩ <;> simp only [rowLast_three] <;> omega
      · omega
    have hwA : ∀ r ∈ A, r.length = 3 := by
      intro r hr
      apply hw
      rw [he]
      exact List.mem_append_left _ hr
    have hpieces_exp : expandFrom bpDeriv (nextFirst 0 A)
        ((if nextFirst 0 A < i then [[nb0, sb0, (i - 1) % U32]] else [])
          ++ [[newNb % U32, (sb0 + (i - nextFirst 0 A) * nb0) % U32, i % U32]]
          ++ (if i < lr0
              then [[nb0, (sb0 + (i - nextFirst 0 A) * nb0 + newNb) % U32, lr0]]
              else []))
        = (List.range (i - nextFirst 0 A)).map
            (fun m => (sb0 + m * nb0, sb0 + m * nb0 + nb0))
          ++ [(sb0 + (i - nextFirst 0 A) * nb0,
                sb0 + (i - nextFirst 0 A) * nb0 + newNb)]
          ++ (List.range (lr0 - i)).map
              (fun m => ((sb0 + (i - nextFirst 0 A) * nb0 + newNb) + m * nb0,
                (sb0 + (i - nextFirst 0 A) * nb0 + newNb) + m * nb0 + nb0)) ∧
        nextFirst (nextFirst 0 A)
          ((if nextFirst 0 A < i then [[nb0, sb0, (i - 1) % U32]] else [])
            ++ [[newNb % U32, (sb0 + (i - nextFirst 0 A) * nb0) % U32, i % U32]]
            ++ (if i < lr0
                then [[nb0, (sb0 + (i - nextFirst 0 A) * nb0 + newNb) % U32, lr0]]
                else [])) = lr0 + 1 := by
      by_cases hpre : nextFirst 0 A < i <;> by_cases hsuf : i < lr0
      · simp only [if_pos hpre, if_pos hsuf, hm1, hm2, hsim, hsinm, hnewm,
          List.cons_append, List.nil_append]
        constructor
        · simp only [expandFrom, rowLast_three]
          rw [show List.map (bpDeriv [nb0, sb0, i - 1])
              = List.map (fun m => (sb0 + m * nb0, sb0 + m * nb0 + nb0)) from rfl]
          rw [show List.map
                (bpDeriv [nb0, sb0 + (i - nextFirst 0 A) * nb0 + newNb, lr0])
              = List.map (fun m =>
                  ((sb0 + (i - nextFirst 0 A) * nb0 + newNb) + m * nb0,
                   (sb0 + (i - nextFirst 0 A) * nb0 + newNb) + m * nb0 + nb0))
                from rfl]
          rw [show i - 1 + 1 - nextFirst 0 A = i - nextFirst 0 A by omega,
            show i + 1 - (i - 1 + 1) = 1 by omega,
            show lr0 + 1 - (i + 1) = lr0 - i by omega]
          rw [show (List.range 1).map
              (bpDeriv [newNb, sb0 + (i - nextFirst 0 A) * nb0, i])
              = [bpDeriv [newNb, sb0 + (i - nextFirst 0 A) * nb0, i] 0] from rfl]
          have hder : bpDeriv [newNb, sb0 + (i - nextFirst 0 A) * nb0, i] 0
              = (sb0 + (i - nextFirst 0 A) * nb0,
                  sb0 + (i - nextFirst 0 A) * nb0 + newNb) := by
            simp [bpDeriv]
          rw [hder]
          simp [expandFrom, List.append_assoc]
        · simp [nextFirst, rowLast_three]
      · simp only [if_pos hpre, if_neg hsuf, hm1, hm2, hsim, hsinm, hnewm,
          List.cons_append, List.nil_append, List.append_nil]
        constructor
        · simp only [expandFrom, rowLast_three]
          rw [show List.map (bpDeriv [nb0, sb0, i - 1])
              = List.map (fun m => (sb0 + m * nb0, sb0 + m * nb0 + nb0)) from rfl]
          rw [show i - 1 + 1 - nextFirst 0 A = i - nextFirst 0 A by omega,
            show i + 1 - (i - 1 + 1) = 1 by omega,
            show lr0 - i = 0 by omega]
          rw [show (List.range 1).map
              (bpDeriv [newNb, sb0 + (i - nextFirst 0 A) * nb0, i])
              = [bpDeriv [newNb, sb0 + (i - nextFirst 0 A) * nb0, i] 0] from rfl]
          have hder : bpDeriv [newNb, sb0 + (i - nextFirst 0 A) * nb0, i] 0
              = (sb0 + (i - nextFirst 0 A) * nb0,
                  sb0 + (i - nextFirst 0 A) * nb0 + newNb) := by
            simp [bpDeriv]
          rw [hder]
          simp [expandFrom, List.append_assoc]
        · simp only [nextFirst, rowLast_three]
          omega
      · simp only [if_neg hpre, if_pos hsuf, hm1, hm2, hsim, hsinm, hnewm,
          List.cons_append, List.nil_append]
        have hieq : nextFirst 0 A = i := by omega
        constructor
        · simp only [expandFrom, rowLast_three]
          rw [show List.map
                (bpDeriv [nb0, sb0 + (i - nextFirst 0 A) * nb0 + newNb, lr0])
              = List.map (fun m =>
                  ((sb0 + (i - nextFirst 0 A) * nb0 + newNb) + m * nb0,
                   (sb0 + (i - nextFirst 0 A) * nb0 + newNb) + m * nb0 + nb0))
                from rfl]
          rw [show i + 1 - nextFirst 0 A = 1 by omega,
            show lr0 + 1 - (i + 1) = lr0 - i by omega,
            show i - nextFirst 0 A = 0 by omega]
          rw [show (List.range 1).map
              (bpDeriv [newNb, sb0 + 0 * nb0, i])
              = [bpDeriv [newNb, sb0 + 0 * nb0, i] 0] from rfl]
          have hder : bpDeriv [newNb, sb0 + 0 * nb0, i] 0
              = (sb0 + 0 * nb0, sb0 + 0 * nb0 + newNb) := by
            simp [bpDeriv]
          rw [hder]
          simp [expandFrom, List.append_assoc]
        · simp [nextFirst, rowLast_three]
      · omega
    obtain ⟨hpe, hpn⟩ := hpieces_exp
    have hsortedX : rowsSorted 0 (A
        ++ ((if nextFirst 0 A < i then [[nb0, sb0, (i - 1) % U32]] else [])
          ++ [[newNb % U32, (sb0 + (i - nextFirst 0 A) * nb0) % U32, i % U32]]
          ++ (if i < lr0
              then [[nb0, (sb0 + (i - nextFirst 0 A) * nb0 + newNb) % U32, lr0]]
              else []))
        ++ B.map (fun r => [r.getD 0 0,
            addWrap32 (r.getD 1 0) ((newNb : Int) - (nb0 : Int)), rowLast r])) := by
      rw [List.append_assoc, rowsSorted_append]
      refine ⟨hsA, ?_⟩
      rw [rowsSorted_append]
      refine ⟨hpiece_sorted, ?_⟩
      rw [hpn]
      exact rowsSorted_shiftRows _ _ _ hBs
    have hexpX : expandFrom bpDeriv 0 (A
        ++ ((if nextFirst 0 A < i then [[nb0, sb0, (i - 1) % U32]] else [])
          ++ [[newNb % U32, (sb0 + (i - nextFirst 0 A) * nb0) % U32, i % U32]]
          ++ (if i < lr0
              then [[nb0, (sb0 + (i - nextFirst 0 A) * nb0 + newNb) % U32, lr0]]
              else []))
        ++ B.map (fun r => [r.getD 0 0,
            addWrap32 (r.getD 1 0) ((newNb : Int) - (nb0 : Int)), rowLast r]))
        = (bpExpand t).take i
          ++ [(sb0 + (i - nextFirst 0 A) * nb0,
                sb0 + (i - nextFirst 0 A) * nb0 + newNb)]
          ++ ((bpExpand t).drop (i + 1)).map
              (fun p => (p.1 + newNb - nb0, p.2 + newNb - nb0)) := by
      rw [List.append_assoc, expandFrom_append, expandFrom_append, hpn, hpe, hshift]
      rw [htakeP, hdropP, List.map_append]
      have hb2 : ((List.range (lr0 - i)).map
          (fun m => ((sb0 + (i - nextFirst 0 A) * nb0 + nb0) + m * nb0,
            (sb0 + (i - nextFirst 0 A) * nb0 + nb0) + m * nb0 + nb0))).map
            (fun p => (p.1 + newNb - nb0, p.2 + newNb - nb0))
          = (List.range (lr0 - i)).map
              (fun m => ((sb0 + (i - nextFirst 0 A) * nb0 + newNb) + m * nb0,
                (sb0 + (i - nextFirst 0 A) * nb0 + newNb) + m * nb0 + nb0)) := by
        rw [List.map_map]
        apply List.map_congr_left
        intro m _
        simp only [Function.comp_apply, Prod.mk.injEq]
        generalize m * nb0 = q
        constructor <;> omega
      rw [hb2]
      simp [List.append_assoc]
    have hilen : i < (bpExpand t).length := by omega
    have hdropeq : (bpExpand t).drop i
        = (sb0 + (i - nextFirst 0 A) * nb0,
            sb0 + (i - nextFirst 0 A) * nb0 + nb0) :: (bpExpand t).drop (i + 1) := by
      rw [List.drop_eq_getElem_cons hilen]
      congr 1
      have h2 := List.getElem?_eq_getElem hilen
      exact Option.some.inj (h2.symm.trans hPi)
    have hcX : contigTo 0 (expandFrom bpDeriv 0 (A
        ++ ((if nextFirst 0 A < i then [[nb0, sb0, (i - 1) % U32]] else [])
          ++ [[newNb % U32, (sb0 + (i - nextFirst 0 A) * nb0) % U32, i % U32]]
          ++ (if i < lr0
              then [[nb0, (sb0 + (i - nextFirst 0 A) * nb0 + newNb) % U32, lr0]]
              else []))
        ++ B.map (fun r => [r.getD 0 0,
            addWrap32 (r.getD 1 0) ((newNb : Int) - (nb0 : Int)), rowLast r])))
        (E + newNb - nb0) := by
      rw [hexpX]
      obtain ⟨hcT, hcD⟩ := contigTo_split_at (bpExpand t) 0 E i hc _ hPi
      rw [hdropeq] at hcD
      obtain ⟨_, hcD2⟩ := hcD
      have hcD3 : contigTo (sb0 + (i - nextFirst 0 A) * nb0 + nb0)
          ((bpExpand t).drop (i + 1)) E := hcD2
      have hsh := contigTo_map_shift _ _ _ newNb nb0 hcD3
      have heq1 : sb0 + (i - nextFirst 0 A) * nb0 + nb0 + newNb - nb0
          = sb0 + (i - nextFirst 0 A) * nb0 + newNb := by omega
      rw [heq1] at hsh
      rw [List.append_assoc]
      apply (contigTo_append_iff _ _ _ _).mpr
      refine ⟨sb0 + (i - nextFirst 0 A) * nb0, hcT, rfl, hsh⟩
    have hwX : ∀ r ∈ (A
        ++ ((if nextFirst 0 A < i then [[nb0, sb0, (i - 1) % U32]] else [])
          ++ [[newNb % U32, (sb0 + (i - nextFirst 0 A) * nb0) % U32, i % U32]]
          ++ (if i < lr0
              then [[nb0, (sb0 + (i - nextFirst 0 A) * nb0 + newNb) % U32, lr0]]
              else []))
        ++ B.map (fun r => [r.getD 0 0,
            addWrap32 (r.getD 1 0) ((newNb : Int) - (nb0 : Int)), rowLast r])),
        r.length = 3 := by
      intro r hr
      rw [List.append_assoc] at hr
      rcases List.mem_append.mp hr with h | h
      · exact hwA r h
      · rcases List.mem_append.mp h with h2 | h2
        · split_ifs at h2 <;>
            simp only [List.mem_append, List.mem_singleton, List.mem_cons,
              List.not_mem_nil, or_false, false_or, List.nil_append,
              List.cons_append] at h2 <;>
            first
              | (rcases h2 with rfl | rfl | rfl
                 · rfl
                 · rfl
                 · rfl)
              | (rcases h2 with rfl | rfl
                 · rfl
                 · rfl)
              | (rcases h2 with rfl
                 rfl)
        · obtain ⟨r0, _, rfl⟩ := List.mem_map.mp h2
          rfl
    obtain ⟨hce, hcs⟩ := coalesce_bp 0 0 (E + newNb - nb0) _ hsortedX hwX hcX
    have hEq : bpExpand (coalesceAdjacent bpMatch (A
        ++ ((if nextFirst 0 A < i then [[nb0, sb0, (i - 1) % U32]] else [])
          ++ [[newNb % U32, (sb0 + (i - nextFirst 0 A) * nb0) % U32, i % U32]]
          ++ (if i < lr0
              then [[nb0, (sb0 + (i - nextFirst 0 A) * nb0 + newNb) % U32, lr0]]
              else []))
        ++ B.map (fun r => [r.getD 0 0,
            addWrap32 (r.getD 1 0) ((newNb : Int) - (nb0 : Int)), rowLast r])))
        = (bpExpand t).take i
          ++ [(sb0 + (i - nextFirst 0 A) * nb0,
                sb0 + (i - nextFirst 0 A) * nb0 + newNb)]
          ++ ((bpExpand t).drop (i + 1)).map
              (fun p => (p.1 + newNb - nb0, p.2 + newNb - nb0)) := by
      rw [bpExpand, hce, hexpX]
    refine ⟨hEq, hcs, ?_⟩
    apply hnumlen _ hcs
    rw [hEq]
    exact hlenRHS

theorem shapeSetItem_expand (t : Table) (i : Nat) (dims : List Nat)
    (hs : rowsSorted 0 t) (hi : i < numSamplesT t) (hn32 : numSamplesT t ≤ U32) :
    shapeExpand (shapeSetItem t i dims)
      = (shapeExpand t).take i ++ [dims.map (· % U32)]
        ++ (shapeExpand t).drop (i + 1) ∧
    rowsSorted 0 (shapeSetItem t i dims) ∧
    numSamplesT (shapeSetItem t i dims) = numSamplesT t := by
  obtain ⟨A, row, B, he, hk, hget, htake, hdrop, hfirst, hnf, hrow, hsA, hsRB⟩ :=
    locatedRow t i hs hi
  obtain ⟨hfle, hBs⟩ := hsRB
  have hiU : i < U32 := lt_of_lt_of_le hi hn32
  have hm1 : i % U32 = i := Nat.mod_eq_of_lt hiU
  have hm2 : (i - 1) % U32 = i - 1 := Nat.mod_eq_of_lt (by omega)
  have hfa : nextFirst 0 A = numSamplesT A := nextFirst_zero A
  have hlenA : (expandFrom shapeDeriv 0 A).length = nextFirst 0 A := by
    rw [expandFrom_length _ _ _ hsA]
    omega
  have hPdecomp : shapeExpand t
      = expandFrom shapeDeriv 0 A
        ++ (List.replicate (rowLast row + 1 - nextFirst 0 A) row.dropLast
            ++ expandFrom shapeDeriv (rowLast row + 1) B) := by
    rw [shapeExpand, he, expandFrom_append, expandFrom, shape_block_const]
  have htakeP : (shapeExpand t).take i
      = expandFrom shapeDeriv 0 A ++ List.replicate (i - nextFirst 0 A) row.dropLast := by
    rw [hPdecomp, show i = (expandFrom shapeDeriv 0 A).length + (i - nextFirst 0 A) by
      rw [hlenA]; omega]
    rw [List.take_append]
    congr 1
    rw [List.take_append_of_le_length (by
      rw [List.length_replicate]; omega)]
    rw [List.take_replicate]
    congr 1
    omega
  have hdropP : (shapeExpand t).drop (i + 1)
      = List.replicate (rowLast row - i) row.dropLast
        ++ expandFrom shapeDeriv (rowLast row + 1) B := by
    rw [hPdecomp, show i + 1
        = (expandFrom shapeDeriv 0 A).length + (i + 1 - nextFirst 0 A) by
      rw [hlenA]; omega]
    rw [List.drop_append]
    rw [List.drop_append_of_le_length (by
      rw [List.length_replicate]; omega)]
    rw [List.drop_replicate]
    congr 2
    omega
  have hPlen : (shapeExpand t).length = numSamplesT t := by
    rw [shapeExpand, expandFrom_length _ _ _ hs]
    omega
  simp only [shapeSetItem, hget, htake, hdrop, hfirst]
  by_cases hcond : nextFirst 0 A = i ∧ rowLast row = i
  · simp only [if_pos hcond]
    obtain ⟨hc1, hc2⟩ := hcond
    have hsorted2 : rowsSorted (nextFirst 0 A)
        ((dims.map (· % U32) ++ [rowLast row]) :: B) := by
      refine ⟨?_, ?_⟩
      · rw [rowLast_concat]
        omega
      · rw [rowLast_concat]
        exact hBs
    have hsorted : rowsSorted 0 (A ++ (dims.map (· % U32) ++ [rowLast row]) :: B) := by
      rw [rowsSorted_append]
      exact ⟨hsA, hsorted2⟩
    have hEq : shapeExpand (A ++ [dims.map (· % U32) ++ [rowLast row]] ++ B)
        = (shapeExpand t).take i ++ [dims.map (· % U32)]
          ++ (shapeExpand t).drop (i + 1) := by
      rw [htakeP, hdropP, List.append_assoc A, shapeExpand, expandFrom_append,
        List.singleton_append, expandFrom, rowLast_concat]
      have hblock : (List.range (rowLast row + 1 - nextFirst 0 A)).map
          (shapeDeriv (dims.map (· % U32) ++ [rowLast row]))
          = [dims.map (· % U32)] := by
        rw [show rowLast row + 1 - nextFirst 0 A = 1 by omega, shape_block_const,
          List.dropLast_concat]
        rfl
      rw [hblock]
      rw [show i - nextFirst 0 A = 0 by omega, show rowLast row - i = 0 by omega]
      simp
    refine ⟨hEq, by rwa [List.append_assoc, List.singleton_append], ?_⟩
    have h1 : (shapeExpand (A ++ [dims.map (· % U32) ++ [rowLast row]] ++ B)).length
        = numSamplesT (A ++ [dims.map (· % U32) ++ [rowLast row]] ++ B) := by
      rw [shapeExpand, expandFrom_length _ _ _ (by
        rwa [List.append_assoc, List.singleton_append])]
      omega
    rw [hEq] at h1
    rw [← h1]
    simp only [List.length_append, List.length_take, List.length_cons,
      List.length_nil, List.length_drop, hPlen]
    omega
  · simp only [if_neg hcond]
    set pieces := (if nextFirst 0 A < i
        then [row.dropLast ++ [(i - 1) % U32]] else [])
      ++ [dims.map (· % U32) ++ [i % U32]]
      ++ (if i < rowLast row then [row.dropLast ++ [rowLast row]] else [])
      with hpiecesdef
    have hexp : expandFrom shapeDeriv (nextFirst 0 A) pieces
        = List.replicate (i - nextFirst 0 A) row.dropLast
          ++ [dims.map (· % U32)]
          ++ List.replicate (rowLast row - i) row.dropLast ∧
        rowsSorted (nextFirst 0 A) pieces ∧
        nextFirst (nextFirst 0 A) pieces = rowLast row + 1 := by
      rw [hpiecesdef]
      by_cases hpre : nextFirst 0 A < i <;> by_cases hsuf : i < rowLast row
      · simp only [if_pos hpre, if_pos hsuf, hm1, hm2]
        refine ⟨?_, ?_, ?_⟩
        · simp only [List.cons_append, List.nil_append, expandFrom, rowLast_concat]
          rw [shape_block_const, shape_block_const, shape_block_const,
            List.dropLast_concat, List.dropLast_concat, List.dropLast_concat]
          rw [show i - 1 + 1 - nextFirst 0 A = i - nextFirst 0 A by omega,
            show i + 1 - (i - 1 + 1) = 1 by omega,
            show rowLast row + 1 - (i + 1) = rowLast row - i by omega]
          simp [expandFrom]
        · refine ⟨?_, ?_, ?_, trivial⟩ <;> simp only [List.cons_append,
            List.nil_append, rowLast_concat] <;> omega
        · simp [nextFirst, rowLast_concat]
      · simp only [if_pos hpre, if_neg hsuf, hm1, hm2]
        refine ⟨?_, ?_, ?_⟩
        · simp only [List.cons_append, List.nil_append, List.append_nil,
            expandFrom, rowLast_concat]
          rw [shape_block_const, shape_block_const,
            List.dropLast_concat, List.dropLast_concat]
          rw [show i - 1 + 1 - nextFirst 0 A = i - nextFirst 0 A by omega,
            show i + 1 - (i - 1 + 1) = 1 by omega,
            show rowLast row - i = 0 by omega]
          simp [expandFrom]
        · refine ⟨?_, ?_, trivial⟩ <;> simp only [List.cons_append,
            List.nil_append, List.append_nil, rowLast_concat] <;> omega
        · simp only [List.cons_append, List.nil_append, List.append_nil,
            nextFirst, rowLast_concat]
          omega
      · simp only [if_neg hpre, if_pos hsuf, hm1, hm2]
        refine ⟨?_, ?_, ?_⟩
        · simp only [List.cons_append, List.nil_append, expandFrom, rowLast_concat]
          rw [shape_block_const, shape_block_const,
            List.dropLast_concat, List.dropLast_concat]
          rw [show i + 1 - nextFirst 0 A = 1 by omega,
            show rowLast row + 1 - (i + 1) = rowLast row - i by omega,
            show i - nextFirst 0 A = 0 by omega]
          simp [expandFrom]
        · refine ⟨?_, ?_, trivial⟩ <;> simp only [List.cons_append,
            List.nil_append, rowLast_concat] <;> omega
        · simp [nextFirst, rowLast_concat]
      · omega
    obtain ⟨hexpP, hsortP, hnfP⟩ := hexp
    have hsortedX : rowsSorted 0 (A ++ pieces ++ B) := by
      rw [List.append_assoc, rowsSorted_append]
      refine ⟨hsA, ?_⟩
      rw [rowsSorted_append]
      exact ⟨hsortP, by rw [hnfP]; exact hBs⟩
    have hexpX : expandFrom shapeDeriv 0 (A ++ pieces ++ B)
        = (shapeExpand t).take i ++ [dims.map (· % U32)]
          ++ (shapeExpand t).drop (i + 1) := by
      rw [List.append_assoc, expandFrom_append, expandFrom_append, hexpP, hnfP]
      rw [htakeP, hdropP]
      simp only [List.append_assoc]
    obtain ⟨hce, hcs⟩ := coalesce_shape 0 (A ++ pieces ++ B) hsortedX
    have hEq : shapeExpand (coalesceAdjacent shapeMatch (A ++ pieces ++ B))
        = (shapeExpand t).take i ++ [dims.map (· % U32)]
          ++ (shapeExpand t).drop (i + 1) := by
      rw [shapeExpand, hce, hexpX]
    refine ⟨hEq, hcs, ?_⟩
    have h1 : (shapeExpand (coalesceAdjacent shapeMatch (A ++ pieces ++ B))).length
        = numSamplesT (coalesceAdjacent shapeMatch (A ++ pieces ++ B)) := by
      rw [shapeExpand, expandFrom_length _ _ _ hcs]
      omega
    rw [hEq] at h1
    rw [← h1]
    simp only [List.length_append, List.length_take, List.length_cons,
      List.length_nil, List.length_drop, hPlen]
    omega

/-! ## Indexing and slice algebra for the update-sample frame property -/

theorem spliced_getElem_lt {α : Type} (L M : List α) (x : α) (i j : Nat)
    (hij : j < i) (hiL : i ≤ L.length) :
    (L.take i ++ [x] ++ M)[j]? = L[j]? := by
  have hlen : (L.take i).length = i := by
    rw [List.length_take]
    omega
  rw [List.getElem?_append_left (by
    simp only [List.length_append, List.length_cons, List.length_nil, hlen]
    omega)]
  rw [List.getElem?_append_left (by rw [hlen]; exact hij)]
  exact List.getElem?_take_of_lt hij

theorem spliced_getElem_gt {α : Type} (L M : List α) (x : α) (i j : Nat)
    (hij : i < j) (hiL : i ≤ L.length) :
    (L.take i ++ [x] ++ M)[j]? = M[j - (i + 1)]? := by
  have hlen : (L.take i ++ [x]).length = i + 1 := by
    simp only [List.length_append, List.length_take, List.length_cons,
      List.length_nil]
    omega
  rw [List.getElem?_append_right (by rw [hlen]; omega)]
  rw [hlen]

theorem spliced_getElem_self {α : Type} (L M : List α) (x : α) (i : Nat)
    (hiL : i ≤ L.length) :
    (L.take i ++ [x] ++ M)[i]? = some x := by
  have hlen : (L.take i).length = i := by
    rw [List.length_take]
    omega
  rw [List.getElem?_append_left (by
    simp only [List.length_append, List.length_cons, List.length_nil, hlen]
    omega)]
  rw [List.getElem?_append_right hlen.le]
  rw [hlen, Nat.sub_self]
  rfl

theorem pyGetSlice_prefix (D Q : List Nat) (si sj ej : Nat) (hej : ej ≤ si)
    (hsi : si ≤ D.length) :
    pyGetSlice (D.take si ++ Q) sj ej = pyGetSlice D sj ej := by
  unfold pyGetSlice
  rw [List.take_append_of_le_length (by rw [List.length_take]; omega)]
  rw [List.take_take, Nat.min_eq_left hej]

theorem pyGetSlice_suffix (P D : List Nat) (c a b sj ej : Nat)
    (hc : c ≤ sj) (hse : sj ≤ ej)
    (ha : a = P.length + (sj - c)) (hb : b = P.length + (ej - c)) :
    pyGetSlice (P ++ D.drop c) a b = pyGetSlice D sj ej := by
  subst ha
  subst hb
  unfold pyGetSlice
  rw [List.take_append, List.drop_append]
  rw [List.take_drop, show c + (ej - c) = ej by omega]
  rw [List.drop_drop, show c + (sj - c) = sj by omega]

theorem pyGetSlice_mid (D newBuf Q : List Nat) (si n : Nat)
    (hsi : si ≤ D.length) (hn : n = newBuf.length) :
    pyGetSlice ((D.take si ++ newBuf) ++ Q) si (si + n) = newBuf := by
  subst hn
  unfold pyGetSlice
  have hlen : (D.take si ++ newBuf).length = si + newBuf.length := by
    rw [List.length_append, List.length_take]
    omega
  rw [List.take_append_of_le_length (by omega)]
  rw [show si + newBuf.length = (D.take si ++ newBuf).length from hlen.symm,
    List.take_length]
  rw [List.drop_left' (by rw [List.length_take]; omega)]

/-- The three slice assignments of `update_sample` (source lines 241-248 and
270-277) assemble exactly `left ++ new_buffer ++ right`. -/
theorem splice_eq (D newBuf : List Nat) (si nbi : Nat) (h1 : si + nbi ≤ D.length) :
    pySetSlice
      (pySetSlice
        (pySetSlice
          (List.replicate ((D.take si).length + newBuf.length
            + (D.drop (si + nbi)).length) 0)
          0 si (D.take si))
        si (si + newBuf.length) newBuf)
      (si + newBuf.length)
      (pySetSlice
        (pySetSlice
          (List.replicate ((D.take si).length + newBuf.length
            + (D.drop (si + nbi)).length) 0)
          0 si (D.take si))
        si (si + newBuf.length) newBuf).length
      (D.drop (si + nbi))
    = D.take si ++ newBuf ++ D.drop (si + nbi) := by
  have hll : (D.take si).length = si := by
    rw [List.length_take]
    omega
  have hrl : (D.drop (si + nbi)).length = D.length - (si + nbi) :=
    List.length_drop _ _
  have hs1 : pySetSlice
      (List.replicate ((D.take si).length + newBuf.length
        + (D.drop (si + nbi)).length) 0)
      0 si (D.take si)
      = D.take si
        ++ List.replicate (newBuf.length + (D.drop (si + nbi)).length) 0 := by
    unfold pySetSlice
    rw [List.take_zero, Nat.max_eq_right (Nat.zero_le si)]
    rw [List.drop_replicate]
    rw [show (D.take si).length + newBuf.length + (D.drop (si + nbi)).length - si
        = newBuf.length + (D.drop (si + nbi)).length by omega]
    rw [List.nil_append]
  rw [hs1]
  have hs2 : pySetSlice
      (D.take si ++ List.replicate (newBuf.length + (D.drop (si + nbi)).length) 0)
      si (si + newBuf.length) newBuf
      = D.take si ++ newBuf
        ++ List.replicate (D.drop (si + nbi)).length 0 := by
    unfold pySetSlice
    rw [List.take_left' hll]
    rw [Nat.max_eq_right (by omega : si ≤ si + newBuf.length)]
    rw [show si + newBuf.length = (D.take si).length + newBuf.length by rw [hll]]
    rw [List.drop_append]
    rw [List.drop_replicate]
    rw [show newBuf.length + (D.drop (si + nbi)).length - newBuf.length
        = (D.drop (si + nbi)).length by omega]
  rw [hs2]
  unfold pySetSlice
  have hs2len : (D.take si ++ newBuf
      ++ List.replicate (D.drop (si + nbi)).length 0).length
      = si + newBuf.length + (D.drop (si + nbi)).length := by
    simp only [List.length_append, List.length_replicate, hll]
  rw [Nat.max_eq_right (by rw [hs2len]; omega)]
  rw [List.drop_length, List.append_nil]
  have htake : (D.take si ++ newBuf
      ++ List.replicate (D.drop (si + nbi)).length 0).take (si + newBuf.length)
      = D.take si ++ newBuf :=
    List.take_left' (by rw [List.length_append, hll])
  rw [htake]

/-- With no chunk compression, a dimensionality-valid `update_sample` call
replaces the data by `left ++ new_buffer ++ right` around sample `i`'s old
byte range and updates both header encoders (source lines 261-278). -/
theorem updateSample_none_spec (comp decomp : List Nat → List Nat)
    (recompressOther : Chunk → Nat → List Nat → List Nat → List Nat)
    (c : Chunk) (i : Nat) (newBuf newShape : List Nat) (si nbi : Nat)
    (hdim : (shapeGetItem c.shapes i).length = newShape.length)
    (hold1 : (bpGetItem c.bytePositions i).1 = si)
    (hold2 : (bpGetItem c.bytePositions i).2 = si + nbi)
    (hnew1 : (bpGetItem (bpSetItem c.bytePositions i newBuf.length) i).1 = si)
    (hnew2 : (bpGetItem (bpSetItem c.bytePositions i newBuf.length) i).2
        = si + newBuf.length)
    (hsd : si + nbi ≤ c.data.length) :
    updateSample comp decomp recompressOther c i newBuf newShape none
      = ({ c with
            shapes := shapeSetItem c.shapes i newShape,
            bytePositions := bpSetItem c.bytePositions i newBuf.length,
            data := c.data.take si ++ newBuf ++ c.data.drop (si + nbi) },
          none) := by
  simp only [updateSample, ffwChunk, hold1, hold2, hnew1, hnew2]
  rw [splice_eq c.data newBuf si nbi hsd, if_neg (not_not_intro hdim)]

/-- With lz4 chunk compression, a dimensionality-valid `update_sample` call
performs the same splice on the decompressed buffer and recompresses it
(source lines 231-250). -/
theorem updateSample_lz4_spec (comp decomp : List Nat → List Nat)
    (recompressOther : Chunk → Nat → List Nat → List Nat → List Nat)
    (c : Chunk) (i : Nat) (newBuf newShape : List Nat) (si nbi : Nat)
    (hdim : (shapeGetItem c.shapes i).length = newShape.length)
    (hold1 : (bpGetItem c.bytePositions i).1 = si)
    (hold2 : (bpGetItem c.bytePositions i).2 = si + nbi)
    (hnew1 : (bpGetItem (bpSetItem c.bytePositions i newBuf.length) i).1 = si)
    (hnew2 : (bpGetItem (bpSetItem c.bytePositions i newBuf.length) i).2
        = si + newBuf.length)
    (hsd : si + nbi ≤ (decomp c.data).length) :
    updateSample comp decomp recompressOther c i newBuf newShape
        (some ChunkCompression.lz4)
      = ({ c with
            shapes := shapeSetItem c.shapes i newShape,
            bytePositions := bpSetItem c.bytePositions i newBuf.length,
            data := comp ((decomp c.data).take si ++ newBuf
              ++ (decomp c.data).drop (si + nbi)) },
          none) := by
  simp only [updateSample, ffwChunk, hold1, hold2, hnew1, hnew2]
  rw [splice_eq (decomp c.data) newBuf si nbi hsd, if_neg (not_not_intro hdim)]

/-- Shape-encoder `__setitem__` leaves every other sample's shape
unchanged. -/
theorem shapeGetItem_setItem_ne (t : Table) (i j : Nat) (dims : List Nat)
    (hs : rowsSorted 0 t) (hi : i < numSamplesT t) (hn32 : numSamplesT t ≤ U32)
    (hj : j < numSamplesT t) (hne : j ≠ i) :
    shapeGetItem (shapeSetItem t i dims) j = shapeGetItem t j := by
  obtain ⟨hExp, hSort, hNum⟩ := shapeSetItem_expand t i dims hs hi hn32
  have hlenE : (shapeExpand t).length = numSamplesT t := by
    rw [shapeExpand, expandFrom_length _ _ _ hs]
    omega
  have h1 := shapeGetItem_eq_expand (shapeSetItem t i dims) j hSort
    (by rw [hNum]; exact hj)
  rw [hExp] at h1
  have h2 := shapeGetItem_eq_expand t j hs hj
  rcases Nat.lt_or_ge j i with hlt | hge
  · rw [spliced_getElem_lt _ _ _ _ _ hlt (by omega)] at h1
    exact Option.some.inj (h1.symm.trans h2)
  · have hgt : i < j := by omega
    rw [spliced_getElem_gt _ _ _ _ _ hgt (by omega)] at h1
    rw [List.getElem?_drop, show i + 1 + (j - (i + 1)) = j by omega] at h1
    exact Option.some.inj (h1.symm.trans h2)

/-- Core frame property of the spliced data: reading back through the
updated byte-positions encoder yields the new buffer at `i` and the old
bytes at every `j ≠ i`. -/
theorem update_frame_core (Dl newBuf : List Nat) (t : Table) (i si nbi : Nat)
    (hs : rowsSorted 0 t) (hi : i < numSamplesT t)
    (hc : contigTo 0 (bpExpand t) Dl.length)
    (hPi : (bpExpand t)[i]? = some (si, si + nbi))
    (hExp : bpExpand (bpSetItem t i newBuf.length)
        = (bpExpand t).take i ++ [(si, si + newBuf.length)]
          ++ ((bpExpand t).drop (i + 1)).map
              (fun p => (p.1 + newBuf.length - nbi, p.2 + newBuf.length - nbi)))
    (hS1 : rowsSorted 0 (bpSetItem t i newBuf.length))
    (hN1 : numSamplesT (bpSetItem t i newBuf.length) = numSamplesT t) :
    pyGetSlice (Dl.take si ++ newBuf ++ Dl.drop (si + nbi))
        (bpGetItem (bpSetItem t i newBuf.length) i).1
        (bpGetItem (bpSetItem t i newBuf.length) i).2 = newBuf ∧
    ∀ j, j < numSamplesT t → j ≠ i →
      pyGetSlice (Dl.take si ++ newBuf ++ Dl.drop (si + nbi))
          (bpGetItem (bpSetItem t i newBuf.length) j).1
          (bpGetItem (bpSetItem t i newBuf.length) j).2
        = pyGetSlice Dl (bpGetItem t j).1 (bpGetItem t j).2 := by
  have hlenE : (bpExpand t).length = numSamplesT t := by
    rw [bpExpand, expandFrom_length _ _ _ hs]
    omega
  have hfacts := contigTo_facts (bpExpand t) 0 Dl.length hc (bpExpand_entry_wf 0 t)
  have hsiE : si + nbi ≤ Dl.length := (hfacts.2.1 i _ hPi).2
  have hPlen : (Dl.take si ++ newBuf).length = si + newBuf.length := by
    rw [List.length_append, List.length_take]
    omega
  have hnewEq : bpGetItem (bpSetItem t i newBuf.length) i
      = (si, si + newBuf.length) := by
    have h1 := bpGetItem_eq_expand (bpSetItem t i newBuf.length) i hS1
      (by rw [hN1]; exact hi)
    rw [hExp, spliced_getElem_self _ _ _ _ (by omega)] at h1
    exact (Option.some.inj h1).symm
  have hn1 : (bpGetItem (bpSetItem t i newBuf.length) i).1 = si := by rw [hnewEq]
  have hn2 : (bpGetItem (bpSetItem t i newBuf.length) i).2
      = si + newBuf.length := by
    rw [hnewEq]
  constructor
  · rw [hn1, hn2]
    exact pyGetSlice_mid Dl newBuf (Dl.drop (si + nbi)) si newBuf.length
      (by omega) rfl
  · intro j hj hjne
    have hPj := bpGetItem_eq_expand t j hs hj
    rcases Nat.lt_or_ge j i with hlt | hge
    · have hbpj : bpGetItem (bpSetItem t i newBuf.length) j = bpGetItem t j := by
        have h1 := bpGetItem_eq_expand (bpSetItem t i newBuf.length) j hS1
          (by rw [hN1]; exact hj)
        rw [hExp, spliced_getElem_lt _ _ _ _ _ hlt (by omega)] at h1
        exact Option.some.inj (h1.symm.trans hPj)
      have hejsi : (bpGetItem t j).2 ≤ si := hfacts.2.2 j i _ _ hlt hPj hPi
      rw [hbpj, List.append_assoc]
      exact pyGetSlice_prefix Dl (newBuf ++ Dl.drop (si + nbi)) si _ _ hejsi
        (by omega)
    · have hgt : i < j := by omega
      have hbpj : bpGetItem (bpSetItem t i newBuf.length) j
          = ((bpGetItem t j).1 + newBuf.length - nbi,
             (bpGetItem t j).2 + newBuf.length - nbi) := by
        have h1 := bpGetItem_eq_expand (bpSetItem t i newBuf.length) j hS1
          (by rw [hN1]; exact hj)
        rw [hExp, spliced_getElem_gt _ _ _ _ _ hgt (by omega),
          List.getElem?_map, List.getElem?_drop,
          show i + 1 + (j - (i + 1)) = j by omega, hPj] at h1
        exact (Option.some.inj h1).symm
      have hsj : si + nbi ≤ (bpGetItem t j).1 := hfacts.2.2 i j _ _ hgt hPi hPj
      have hwfj : (bpGetItem t j).1 ≤ (bpGetItem t j).2 :=
        bpExpand_entry_wf 0 t _ (List.getElem?_mem hPj)
      rw [hbpj]
      exact pyGetSlice_suffix (Dl.take si ++ newBuf) Dl (si + nbi) _ _
        (bpGetItem t j).1 (bpGetItem t j).2 hsj hwfj
        (by rw [hPlen]; omega) (by rw [hPlen]; omega)

/-- Claim C4: for a valid update of sample `i` (matching dimensionality) on
a chunk whose byte-positions rows are well formed and tile the payload
buffer contiguously, `update_sample` succeeds in both the
`chunk_compression=None` splice path and the lz4
decompress-splice-recompress path; every sample `j ≠ i` reads back
byte-for-byte unchanged with an unchanged shape, and sample `i` reads back
as exactly the new buffer. -/
theorem chunk_update_preserves_other_samples
    (comp decomp : List Nat → List Nat)
    (recompressOther : Chunk → Nat → List Nat → List Nat → List Nat)
    (c : Chunk) (i : Nat) (newBuf newShape : List Nat)
    (cc : Option ChunkCompression)
    (hcc : cc = none ∨ cc = some ChunkCompression.lz4)
    (hrt : ∀ b, decomp (comp b) = b)
    (hsbp : rowsSorted 0 c.bytePositions)
    (hss : rowsSorted 0 c.shapes)
    (hwbp : ∀ r ∈ c.bytePositions, r.length = 3)
    (hns : numSamplesT c.shapes = numSamplesT c.bytePositions)
    (hn32 : numSamplesT c.bytePositions ≤ U32)
    (hi : i < numSamplesT c.bytePositions)
    (hdim : (shapeGetItem c.shapes i).length = newShape.length)
    (hcont : contigTo 0 (bpExpand c.bytePositions)
        (payloadBuf decomp cc c).length)
    (hroom : (payloadBuf decomp cc c).length + newBuf.length < U32) :
    (updateSample comp decomp recompressOther c i newBuf newShape cc).2 = none ∧
    readSampleBytes decomp cc
        (updateSample comp decomp recompressOther c i newBuf newShape cc).1 i
      = newBuf ∧
    (∀ j, j < numSamplesT c.bytePositions → j ≠ i →
      readSampleBytes decomp cc
          (updateSample comp decomp recompressOther c i newBuf newShape cc).1 j
        = readSampleBytes decomp cc c j ∧
      shapeGetItem
          (updateSample comp decomp recompressOther c i newBuf newShape cc).1.shapes
          j
        = shapeGetItem c.shapes j) := by
  obtain ⟨si, nbi, hPi, hExp, hS1, hN1⟩ :=
    bpSetItem_expand c.bytePositions i newBuf.length
      (payloadBuf decomp cc c).length hsbp hwbp hi hn32 hcont (by omega)
  have holdEq : bpGetItem c.bytePositions i = (si, si + nbi) :=
    Option.some.inj ((bpGetItem_eq_expand c.bytePositions i hsbp hi).symm.trans hPi)
  have hold1 : (bpGetItem c.bytePositions i).1 = si := by rw [holdEq]
  have hold2 : (bpGetItem c.bytePositions i).2 = si + nbi := by rw [holdEq]
  have hlenE : (bpExpand c.bytePositions).length = numSamplesT c.bytePositions := by
    rw [bpExpand, expandFrom_length _ _ _ hsbp]
    omega
  have hfacts := contigTo_facts (bpExpand c.bytePositions) 0
    (payloadBuf decomp cc c).length hcont (bpExpand_entry_wf 0 c.bytePositions)
  have hsiE : si + nbi ≤ (payloadBuf decomp cc c).length := (hfacts.2.1 i _ hPi).2
  have hnewEq : bpGetItem (bpSetItem c.bytePositions i newBuf.length) i
      = (si, si + newBuf.length) := by
    have h1 := bpGetItem_eq_expand (bpSetItem c.bytePositions i newBuf.length) i hS1
      (by rw [hN1]; exact hi)
    rw [hExp, spliced_getElem_self _ _ _ _ (by omega)] at h1
    exact (Option.some.inj h1).symm
  have hnew1 : (bpGetItem (bpSetItem c.bytePositions i newBuf.length) i).1 = si := by
    rw [hnewEq]
  have hnew2 : (bpGetItem (bpSetItem c.bytePositions i newBuf.length) i).2
      = si + newBuf.length := by
    rw [hnewEq]
  have hshape : ∀ j, j < numSamplesT c.bytePositions → j ≠ i →
      shapeGetItem (shapeSetItem c.shapes i newShape) j = shapeGetItem c.shapes j := by
    intro j hj hjne
    exact shapeGetItem_setItem_ne c.shapes i j newShape hss (by rw [hns]; exact hi)
      (by rw [hns]; exact hn32) (by rw [hns]; exact hj) hjne
  rcases hcc with rfl | rfl
  · have hcore := update_frame_core c.data newBuf c.bytePositions i si nbi hsbp hi
      hcont hPi hExp hS1 hN1
    rw [updateSample_none_spec comp decomp recompressOther c i newBuf newShape si nbi
      hdim hold1 hold2 hnew1 hnew2 hsiE]
    refine ⟨rfl, hcore.1, ?_⟩
    intro j hj hjne
    exact ⟨hcore.2 j hj hjne, hshape j hj hjne⟩
  · have hcore := update_frame_core (decomp c.data) newBuf c.bytePositions i si nbi
      hsbp hi hcont hPi hExp hS1 hN1
    rw [updateSample_lz4_spec comp decomp recompressOther c i newBuf newShape si nbi
      hdim hold1 hold2 hnew1 hnew2 hsiE]
    have hPB : decomp (comp ((decomp c.data).take si ++ newBuf
        ++ (decomp c.data).drop (si + nbi)))
        = (decomp c.data).take si ++ newBuf ++ (decomp c.data).drop (si + nbi) :=
      hrt _
    refine ⟨rfl, ?_, ?_⟩
    · show pyGetSlice (decomp (comp ((decomp c.data).take si ++ newBuf
          ++ (decomp c.data).drop (si + nbi)))) _ _ = newBuf
      rw [hPB]
      exact hcore.1
    · intro j hj hjne
      refine ⟨?_, hshape j hj hjne⟩
      show pyGetSlice (decomp (comp ((decomp c.data).take si ++ newBuf
          ++ (decomp c.data).drop (si + nbi)))) _ _ = _
      rw [hPB]
      exact hcore.2 j hj hjne

/-- Witness for C4: a two-sample chunk (3 bytes each, shape `(2,)`),
updating sample 0 with a 2-byte buffer; sample 1 reads back unchanged and
sample 0 reads back as the new buffer. -/
theorem chunk_update_preserves_other_samples_witness :
    (updateSample id id (fun c _ _ _ => c.data)
        ⟨[50], [[2, 1]], [[3, 0, 1]], [1, 2, 3, 4, 5, 6]⟩ 0 [7, 7] [2] none).2
      = none ∧
    readSampleBytes id none
        (updateSample id id (fun c _ _ _ => c.data)
          ⟨[50], [[2, 1]], [[3, 0, 1]], [1, 2, 3, 4, 5, 6]⟩ 0 [7, 7] [2] none).1 0
      = [7, 7] ∧
    (∀ j, j < numSamplesT [[3, 0, 1]] → j ≠ 0 →
      readSampleBytes id none
          (updateSample id id (fun c _ _ _ => c.data)
            ⟨[50], [[2, 1]], [[3, 0, 1]], [1, 2, 3, 4, 5, 6]⟩ 0 [7, 7] [2] none).1 j
        = readSampleBytes id none
            ⟨[50], [[2, 1]], [[3, 0, 1]], [1, 2, 3, 4, 5, 6]⟩ j ∧
      shapeGetItem
          (updateSample id id (fun c _ _ _ => c.data)
            ⟨[50], [[2, 1]], [[3, 0, 1]], [1, 2, 3, 4, 5, 6]⟩
            0 [7, 7] [2] none).1.shapes j
        = shapeGetItem [[2, 1]] j) :=
  chunk_update_preserves_other_samples id id (fun c _ _ _ => c.data)
    ⟨[50], [[2, 1]], [[3, 0, 1]], [1, 2, 3, 4, 5, 6]⟩ 0 [7, 7] [2] none
    (Or.inl rfl) (fun _ => rfl) (by decide) (by decide) (by decide) (by decide)
    (by decide) (by decide) (by decide) (by decide) (by decide)

end Hub
